import Mathlib

/-!
# Verification of `vaex/encoding.py` (encoding registry and binary envelope)

Shallow embedding of `packages/vaex-core/vaex/encoding.py`: the codec
registry, the per-message encoding session (blob store and object-spec
table), the value codecs (`ndarray`, `arrow-array`, `array`, `dtype`,
`function`, `variable`), and the binary envelope (`_pack_blobs`,
`_unpack_blobs`, `binary.serialize`, `binary.deserialize`).

Conventions of the embedding:
* Python byte strings are `List Nat` (each entry one byte).
* The JSON-shaped metadata tree (`EncodedForm` in the spec) is the
  inductive `EForm`; Python dicts are insertion-ordered association
  lists, as produced by the code.
* The JSON text serialization (`json.dumps` / `json.loads`, a stdlib
  collaborator external to the repository) is modelled as an injective
  self-delimiting token encoding `serEForm` with parser `parseEF`; the
  only properties of the real JSON codec that the code under
  verification relies on are that it is a byte blob and that
  `loads (dumps x) = x`.
* Failures that Python raises (struct.error, AssertionError, KeyError,
  UnicodeDecodeError, ValueError) are modelled by `Option.none` /
  explicit failure values; the spec groups these under FormatError /
  ReferenceError / UnsupportedValue.
-/

namespace VaexEnc

/-- A JSON-compatible tree: the `EncodedForm` of the spec.  Python dicts
are modelled as insertion-ordered association lists (CPython dicts are
insertion ordered, and every dict built by `encoding.py` has distinct
keys). -/
inductive EForm where
  | null : EForm
  | bool : Bool → EForm
  | int : Int → EForm
  | str : String → EForm
  | arr : List EForm → EForm
  | obj : List (String × EForm) → EForm

/-- Dict key lookup, `d[k]` / `k in d` on an `EForm.obj`. -/
def EForm.get? : EForm → String → Option EForm
  | .obj kvs, k => kvs.lookup k
  | _, _ => none

/-- `value` when the form is a JSON string (blob references travel as
strings inside the tree). -/
def EForm.asStr : EForm → Option String
  | .str s => some s
  | _ => none

mutual

/-- Model of `json.dumps` restricted to the `EForm` universe: an
injective, self-delimiting token stream.  (The concrete JSON text
produced by the stdlib is irrelevant to the code under verification;
only blob-ness and round-tripping are used.) -/
def serEForm : EForm → List Nat
  | .null => [0]
  | .bool b => [1, cond b 1 0]
  | .int n => [2, if n < 0 then 1 else 0, n.natAbs]
  | .str s => 3 :: s.data.length :: s.data.map Char.toNat
  | .arr xs => 4 :: xs.length :: serList xs
  | .obj kvs => 5 :: kvs.length :: serPairs kvs

/-- Serialize the elements of a JSON array, in order. -/
def serList : List EForm → List Nat
  | [] => []
  | e :: es => serEForm e ++ serList es

/-- Serialize the key/value pairs of a JSON object, in order. -/
def serPairs : List (String × EForm) → List Nat
  | [] => []
  | (k, v) :: kvs => (k.data.length :: k.data.map Char.toNat) ++ serEForm v ++ serPairs kvs

end

/-- Read a length-prefixed string from the token stream. -/
def readStr (l : List Nat) : Option (String × List Nat) :=
  match l with
  | [] => none
  | n :: rest =>
    if n ≤ rest.length then
      some (String.mk ((rest.take n).map Char.ofNat), rest.drop n)
    else none

mutual

/-- Parser for `serEForm` (model of `json.loads`); `fuel` bounds the
number of tokens consumed and makes the recursion structural. -/
def parseEF : Nat → List Nat → Option (EForm × List Nat)
  | 0, _ => none
  | _ + 1, [] => none
  | fuel + 1, t :: rest =>
    match t with
    | 0 => some (.null, rest)
    | 1 =>
      match rest with
      | b :: rest' => some (.bool (b == 1), rest')
      | [] => none
    | 2 =>
      match rest with
      | sgn :: mag :: rest' =>
        some (.int (if sgn = 1 then -(mag : Int) else (mag : Int)), rest')
      | _ => none
    | 3 => (readStr rest).map fun p => (.str p.1, p.2)
    | 4 =>
      match rest with
      | n :: rest' => (parseItems fuel n rest').map fun p => (.arr p.1, p.2)
      | [] => none
    | 5 =>
      match rest with
      | n :: rest' => (parsePairs fuel n rest').map fun p => (.obj p.1, p.2)
      | [] => none
    | _ + 6 => none
termination_by fuel _ => (fuel, 0)

/-- Parse `n` consecutive serialized forms. -/
def parseItems : Nat → Nat → List Nat → Option (List EForm × List Nat)
  | _, 0, l => some ([], l)
  | fuel, n + 1, l => do
    let (e, l') ← parseEF fuel l
    let (es, l'') ← parseItems fuel n l'
    pure (e :: es, l'')
termination_by fuel n _ => (fuel, n + 1)

/-- Parse `n` consecutive serialized key/value pairs. -/
def parsePairs : Nat → Nat → List Nat → Option (List (String × EForm) × List Nat)
  | _, 0, l => some ([], l)
  | fuel, n + 1, l => do
    let (k, l') ← readStr l
    let (v, l'') ← parseEF fuel l'
    let (kvs, l''') ← parsePairs fuel n l''
    pure ((k, v) :: kvs, l''')
termination_by fuel n _ => (fuel, n + 1)

end

/-- Model of `json.loads` on the token-stream model of JSON text:
parse one form and require the stream to be exhausted. -/
def jsonLoads (bs : List Nat) : Option EForm :=
  match parseEF bs.length bs with
  | some (e, []) => some e
  | _ => none

theorem map_ofNat_toNat (l : List Char) : (l.map Char.toNat).map Char.ofNat = l := by
  induction l with
  | nil => rfl
  | cons c cs ih => simp only [List.map_cons, Char.ofNat_toNat, ih]

theorem readStr_ser (s : String) (rest : List Nat) :
    readStr ((s.data.length :: s.data.map Char.toNat) ++ rest) = some (s, rest) := by
  have hlen : (s.data.map Char.toNat).length = s.data.length := by simp
  simp only [readStr, List.cons_append]
  rw [if_pos (by simp), List.take_left' hlen, List.drop_left' hlen, map_ofNat_toNat]

theorem serEForm_length_pos (e : EForm) : 1 ≤ (serEForm e).length := by
  cases e <;> simp [serEForm]

theorem parse_ser_aux (fuel : Nat) :
    (∀ e rest, (serEForm e).length ≤ fuel → parseEF fuel (serEForm e ++ rest) = some (e, rest))
    ∧ (∀ xs rest, (serList xs).length ≤ fuel →
        parseItems fuel xs.length (serList xs ++ rest) = some (xs, rest))
    ∧ (∀ kvs rest, (serPairs kvs).length ≤ fuel →
        parsePairs fuel kvs.length (serPairs kvs ++ rest) = some (kvs, rest)) := by
  induction fuel with
  | zero =>
    refine ⟨fun e rest h => absurd h (by have := serEForm_length_pos e; omega), ?_, ?_⟩
    · intro xs rest h
      match xs with
      | [] => simp [serList, parseItems]
      | x :: xs' =>
        exact absurd h (by simp only [serList, List.length_append, Nat.not_le];
                           have := serEForm_length_pos x; omega)
    · intro kvs rest h
      match kvs with
      | [] => simp [serPairs, parsePairs]
      | (k, v) :: kvs' =>
        exact absurd h (by simp only [serPairs, List.length_append, List.length_cons,
                             Nat.not_le]; omega)
  | succ f ih =>
    obtain ⟨ihE, ihL, ihP⟩ := ih
    have hE : ∀ e rest, (serEForm e).length ≤ f + 1 →
        parseEF (f + 1) (serEForm e ++ rest) = some (e, rest) := by
      intro e rest h
      match e with
      | .null => simp [serEForm, parseEF]
      | .bool b => cases b <;> simp [serEForm, parseEF]
      | .int n =>
        by_cases hn : n < 0
        · simp only [serEForm, hn, if_true, List.cons_append, List.nil_append, parseEF]
          simp only [if_pos rfl, Option.some.injEq, Prod.mk.injEq, and_true, EForm.int.injEq]
          omega
        · simp only [serEForm, hn, if_false, List.cons_append, List.nil_append, parseEF]
          rw [if_neg (by omega)]
          simp only [Option.some.injEq, Prod.mk.injEq, and_true, EForm.int.injEq]
          omega
      | .str s =>
        simp only [serEForm, List.cons_append, parseEF]
        rw [show (s.data.length :: (s.data.map Char.toNat ++ rest))
              = (s.data.length :: s.data.map Char.toNat) ++ rest from rfl, readStr_ser]
        rfl
      | .arr xs =>
        simp only [serEForm, List.cons_append, parseEF]
        rw [ihL xs rest (by simp only [serEForm, List.length_cons] at h; omega)]
        rfl
      | .obj kvs =>
        simp only [serEForm, List.cons_append, parseEF]
        rw [ihP kvs rest (by simp only [serEForm, List.length_cons] at h; omega)]
        rfl
    have hL : ∀ xs rest, (serList xs).length ≤ f + 1 →
        parseItems (f + 1) xs.length (serList xs ++ rest) = some (xs, rest) := by
      intro xs
      induction xs with
      | nil => intro rest _; simp [serList, parseItems]
      | cons x xs' ihx =>
        intro rest h
        simp only [serList, List.length_append] at h
        simp only [serList, List.length_cons, parseItems, List.append_assoc]
        rw [hE x (serList xs' ++ rest) (by omega)]
        simp only [Option.bind_eq_bind, Option.some_bind]
        rw [ihx rest (by omega)]
        rfl
    have hP : ∀ kvs rest, (serPairs kvs).length ≤ f + 1 →
        parsePairs (f + 1) kvs.length (serPairs kvs ++ rest) = some (kvs, rest) := by
      intro kvs
      induction kvs with
      | nil => intro rest _; simp [serPairs, parsePairs]
      | cons kv kvs' ihkv =>
        obtain ⟨k, v⟩ := kv
        intro rest h
        simp only [serPairs, List.length_append, List.length_cons] at h
        simp only [serPairs, List.length_cons, parsePairs, List.append_assoc]
        rw [readStr_ser k (serEForm v ++ (serPairs kvs' ++ rest))]
        simp only [Option.bind_eq_bind, Option.some_bind]
        rw [hE v (serPairs kvs' ++ rest) (by omega)]
        simp only [Option.some_bind]
        rw [ihkv rest (by omega)]
        rfl
    exact ⟨hE, hL, hP⟩

/-- Parsing inverts serialization: the token-stream JSON model round-trips. -/
theorem parseEF_serEForm (e : EForm) (fuel : Nat) (h : (serEForm e).length ≤ fuel)
    (rest : List Nat) : parseEF fuel (serEForm e ++ rest) = some (e, rest) :=
  (parse_ser_aux fuel).1 e rest h

/-- `loads (dumps x) = x` for the JSON model. -/
theorem jsonLoads_serEForm (e : EForm) : jsonLoads (serEForm e) = some e := by
  have h := parseEF_serEForm e (serEForm e).length (le_refl _) []
  rw [List.append_nil] at h
  unfold jsonLoads
  rw [h]

theorem serEForm_injective : Function.Injective serEForm := by
  intro a b hab
  have ha := parseEF_serEForm a (serEForm a).length (le_refl _) []
  rw [hab] at ha
  have hb := parseEF_serEForm b (serEForm b).length (le_refl _) []
  rw [ha] at hb
  simp only [Option.some.injEq, Prod.mk.injEq] at hb
  exact hb.1

instance : DecidableEq EForm := fun a b =>
  decidable_of_iff (serEForm a = serEForm b)
    ⟨fun h => serEForm_injective h, fun h => h ▸ rfl⟩

/-! ## Byte-level primitives: `struct.pack('q', ...)` on a little-endian host -/

/-- `k`-byte little-endian byte string of `n` (low byte first), the
layout `struct.pack` produces for unsigned values on a native
little-endian machine. -/
def natLE : Nat → Nat → List Nat
  | 0, _ => []
  | k + 1, n => (n % 256) :: natLE k (n / 256)

/-- Value of a little-endian byte string. -/
def fromLE (bs : List Nat) : Nat := bs.foldr (fun b acc => b + 256 * acc) 0

theorem length_natLE (k n : Nat) : (natLE k n).length = k := by
  induction k generalizing n with
  | zero => rfl
  | succ k ih => simp [natLE, ih]

theorem fromLE_natLE (k n : Nat) (h : n < 256 ^ k) : fromLE (natLE k n) = n := by
  induction k generalizing n with
  | zero => simp at h; simp [natLE, fromLE, h]
  | succ k ih =>
    have hdiv : n / 256 < 256 ^ k := by
      rw [Nat.div_lt_iff_lt_mul (by norm_num)]
      calc n < 256 ^ (k + 1) := h
        _ = 256 ^ k * 256 := by ring
    simp only [natLE, fromLE, List.foldr_cons]
    have := ih (n / 256) hdiv
    simp only [fromLE] at this
    rw [this]
    omega

/-- Two's-complement 8-byte little-endian encoding of a signed 64-bit
integer: the byte string `struct.pack('q', n)` produces (for `n` in
the signed 64-bit range). -/
def int64le (n : Int) : List Nat := natLE 8 (n % (2 ^ 64)).toNat

theorem length_int64le (n : Int) : (int64le n).length = 8 := length_natLE ..

/-- `struct.unpack('q', stream.read(8))`: read 8 bytes, interpret as a
signed native-order 64-bit integer; `none` models the `struct.error`
raised when fewer than 8 bytes remain. -/
def readI64 (l : List Nat) : Option (Int × List Nat) :=
  if 8 ≤ l.length then
    let w := fromLE (l.take 8)
    some (if w < 2 ^ 63 then (w : Int) else (w : Int) - 2 ^ 64, l.drop 8)
  else none

/-- Read `n` consecutive signed 64-bit integers (`struct.unpack(f'{n}q', ...)`). -/
def readI64s : Nat → List Nat → Option (List Int × List Nat)
  | 0, l => some ([], l)
  | n + 1, l => do
    let (v, l') ← readI64 l
    let (vs, l'') ← readI64s n l'
    pure (v :: vs, l'')

theorem readI64_int64le (n : Int) (h1 : -(2 ^ 63) ≤ n) (h2 : n < 2 ^ 63) (rest : List Nat) :
    readI64 (int64le n ++ rest) = some (n, rest) := by
  have hlen : (natLE 8 (n % (2 ^ 64)).toNat).length = 8 := length_natLE ..
  have h0 : 0 ≤ n % (2 ^ 64) := Int.emod_nonneg n (by norm_num)
  have hl : n % (2 ^ 64) < 2 ^ 64 := Int.emod_lt_of_pos n (by norm_num)
  have hm : (n % (2 ^ 64)).toNat < 256 ^ 8 := by
    have : (256 : Nat) ^ 8 = 2 ^ 64 := by norm_num
    omega
  unfold readI64 int64le
  rw [if_pos (by rw [List.length_append, hlen]; omega)]
  rw [List.take_left' hlen, List.drop_left' hlen, fromLE_natLE _ _ hm]
  show some (if (n % (2 ^ 64)).toNat < 2 ^ 63 then (((n % (2 ^ 64)).toNat : Nat) : Int)
      else (((n % (2 ^ 64)).toNat : Nat) : Int) - 2 ^ 64, rest) = some (n, rest)
  split <;> (simp only [Option.some.injEq, Prod.mk.injEq, and_true]; omega)

theorem readI64s_int64le (os : List Nat) (h : ∀ o ∈ os, o < 2 ^ 63) (rest : List Nat) :
    readI64s os.length ((os.flatMap fun o => int64le o) ++ rest)
      = some (os.map Int.ofNat, rest) := by
  induction os with
  | nil => simp [readI64s]
  | cons o os' ih =>
    simp only [List.flatMap_cons, List.length_cons, List.append_assoc, readI64s,
      Option.bind_eq_bind]
    rw [readI64_int64le o (by omega) (by exact_mod_cast h o (by simp)) _]
    simp only [Option.some_bind]
    rw [ih (fun x hx => h x (by simp [hx]))]
    rfl

/-! ## The binary blob container: `_pack_blobs` / `_unpack_blobs` -/

/-- Running prefix sums: model of `np.cumsum`. -/
def cumsum : List Nat → List Nat
  | [] => []
  | x :: xs => x :: (cumsum xs).map (x + ·)

/-- The offset table `(np.cumsum([0] + lenghts) + header_length).tolist()`
of `_pack_blobs` (source lines 450-451): `count + 1` entries; entry `i`
is the byte position where blob `i` starts, the last entry is the total
buffer length. -/
def packOffsets (blobs : List (List Nat)) : List Nat :=
  (cumsum (0 :: blobs.map List.length)).map (· + 8 * (2 + blobs.length))

/-- Model of `_pack_blobs` (source lines 445-457): an 8-byte signed
native-order count, the `count + 1` offsets, then the blobs
back-to-back. -/
def _pack_blobs (blobs : List (List Nat)) : List Nat :=
  int64le blobs.length ++ (packOffsets blobs).flatMap (fun o => int64le o) ++ blobs.flatten

/-- Python slice `l[i1:i2]` with integer indices: negative indices count
from the end, out-of-range indices clamp, never an error. -/
def pySlice (l : List Nat) (i1 i2 : Int) : List Nat :=
  (l.take (if i2 < 0 then max ((l.length : Int) + i2) 0 else min i2 (l.length : Int)).toNat).drop
    (if i1 < 0 then max ((l.length : Int) + i1) 0 else min i1 (l.length : Int)).toNat

/-- Model of `_unpack_blobs` (source lines 460-469).  `none` models a
raised `struct.error` (truncated header / negative count) or the
`assert offsets[-1] == len(bytes)` failing — the spec's FormatError.
Note the only integrity check performed is on the **final** offset. -/
def _unpack_blobs (bytes : List Nat) : Option (List (List Nat)) := do
  let (count, r1) ← readI64 bytes
  if count < 0 then none
  else do
    let (offsets, _) ← readI64s (count.toNat + 1) r1
    if offsets.getLast? = some (bytes.length : Int) then
      pure ((offsets.dropLast.zip offsets.tail).map fun p => pySlice bytes p.1 p.2)
    else none

/-- Alternative, recursion-friendly description of the offset table:
start position of every blob when the first blob starts at `k`, plus the
final end position. -/
def offsetsFrom : Nat → List (List Nat) → List Nat
  | k, [] => [k]
  | k, b :: bs => k :: offsetsFrom (k + b.length) bs

theorem cumsum_map_add (bs : List (List Nat)) :
    ∀ h : Nat, h :: (cumsum (bs.map List.length)).map (· + h) = offsetsFrom h bs := by
  induction bs with
  | nil => intro h; simp [cumsum, offsetsFrom]
  | cons b bs' ih =>
    intro h
    simp only [List.map_cons, cumsum, offsetsFrom, List.map_map]
    rw [← ih (h + b.length)]
    simp only [List.cons.injEq, true_and]
    refine ⟨by omega, ?_⟩
    congr 1
    funext x
    simp only [Function.comp_apply]
    omega

theorem packOffsets_eq_offsetsFrom (blobs : List (List Nat)) :
    packOffsets blobs = offsetsFrom (8 * (2 + blobs.length)) blobs := by
  unfold packOffsets
  rw [← cumsum_map_add blobs (8 * (2 + blobs.length))]
  simp only [cumsum, List.map_cons, List.map_map, List.cons.injEq]
  refine ⟨by omega, ?_⟩
  congr 1
  funext x
  simp only [Function.comp_apply]
  omega

theorem offsetsFrom_length (k : Nat) (bs : List (List Nat)) :
    (offsetsFrom k bs).length = bs.length + 1 := by
  induction bs generalizing k with
  | nil => rfl
  | cons b bs' ih => simp [offsetsFrom, ih]

theorem offsetsFrom_head? (k : Nat) (bs : List (List Nat)) :
    (offsetsFrom k bs).head? = some k := by
  cases bs <;> rfl

theorem offsetsFrom_getLast? (k : Nat) (bs : List (List Nat)) :
    (offsetsFrom k bs).getLast? = some (k + bs.flatten.length) := by
  induction bs generalizing k with
  | nil => simp [offsetsFrom]
  | cons b bs' ih =>
    have hcons : ∃ t, offsetsFrom (k + b.length) bs' = (k + b.length) :: t := by
      cases bs' <;> exact ⟨_, rfl⟩
    obtain ⟨t, ht⟩ := hcons
    simp only [offsetsFrom, List.flatten_cons, List.length_append, ht,
      List.getLast?_cons_cons]
    rw [← ht, ih]
    congr 1
    omega

theorem offsetsFrom_chain_le (k : Nat) (bs : List (List Nat)) :
    List.Chain' (· ≤ ·) (offsetsFrom k bs) := by
  induction bs generalizing k with
  | nil => simp [offsetsFrom]
  | cons b bs' ih =>
    simp only [offsetsFrom]
    cases bs' with
    | nil => simp [offsetsFrom]
    | cons c cs =>
      refine List.Chain'.cons ?_ (ih (k + b.length))
      simp [offsetsFrom]

theorem offsetsFrom_mem_bounds (k : Nat) (bs : List (List Nat)) :
    ∀ o ∈ offsetsFrom k bs, k ≤ o ∧ o ≤ k + bs.flatten.length := by
  induction bs generalizing k with
  | nil => intro o ho; simp [offsetsFrom] at ho; omega
  | cons b bs' ih =>
    intro o ho
    simp only [offsetsFrom, List.mem_cons] at ho
    rcases ho with rfl | ho
    · simp
    · have := ih (k + b.length) o ho
      simp only [List.flatten_cons, List.length_append]
      omega

theorem pySlice_coe (l : List Nat) (a b : Nat) (ha : a ≤ l.length) (hb : b ≤ l.length) :
    pySlice l (a : Int) (b : Int) = (l.take b).drop a := by
  unfold pySlice
  rw [if_neg (by omega), if_neg (by omega)]
  have h1 : min (a : Int) (l.length : Int) = (a : Int) := by omega
  have h2 : min (b : Int) (l.length : Int) = (b : Int) := by omega
  rw [h1, h2, show ((a : Int)).toNat = a from by omega,
    show ((b : Int)).toNat = b from by omega]

/-- Slicing the packed buffer at consecutive offsets recovers the blobs. -/
theorem slices_offsetsFrom (bs : List (List Nat)) (pre : List Nat) :
    (((offsetsFrom pre.length bs).dropLast.zip (offsetsFrom pre.length bs).tail).map
      fun p => ((pre ++ bs.flatten).take p.2).drop p.1) = bs := by
  induction bs generalizing pre with
  | nil => simp [offsetsFrom]
  | cons b bs' ih =>
    have hhead : ∃ t, offsetsFrom (pre.length + b.length) bs' = (pre.length + b.length) :: t := by
      cases bs' <;> exact ⟨_, rfl⟩
    obtain ⟨t, ht⟩ := hhead
    simp only [offsetsFrom, ht, List.dropLast_cons₂, List.tail_cons, List.zip_cons_cons,
      List.map_cons, List.flatten_cons, List.cons.injEq]
    constructor
    · rw [← List.append_assoc, List.take_left' (by simp), List.drop_left]
    · have hIH := ih (pre ++ b)
      rw [List.length_append, ht, List.append_assoc] at hIH
      simpa using hIH

theorem length_flatMap_int64le (l : List Nat) :
    (l.flatMap fun o => int64le o).length = 8 * l.length := by
  induction l with
  | nil => simp
  | cons x xs ih =>
    simp only [List.flatMap_cons, List.length_append, List.length_cons, ih, length_int64le]
    omega

theorem packOffsets_length (blobs : List (List Nat)) :
    (packOffsets blobs).length = blobs.length + 1 := by
  rw [packOffsets_eq_offsetsFrom, offsetsFrom_length]

theorem _pack_blobs_length (blobs : List (List Nat)) :
    (_pack_blobs blobs).length = 8 * (2 + blobs.length) + blobs.flatten.length := by
  unfold _pack_blobs
  simp only [List.length_append, length_int64le, length_flatMap_int64le, packOffsets_length]
  omega

/-- Unpacking a packed envelope recovers the blobs (in order); the
hypothesis keeps every header word in the signed 64-bit range that
`struct.pack('q', ...)` can represent. -/
theorem unpack_pack (blobs : List (List Nat)) (h : (_pack_blobs blobs).length < 2 ^ 63) :
    _unpack_blobs (_pack_blobs blobs) = some blobs := by
  have hlen := _pack_blobs_length blobs
  have hbnd : ∀ o ∈ packOffsets blobs, o ≤ (_pack_blobs blobs).length := by
    intro o ho
    rw [packOffsets_eq_offsetsFrom] at ho
    have := offsetsFrom_mem_bounds _ _ o ho
    omega
  have hB : _pack_blobs blobs
      = int64le (blobs.length : Int)
        ++ (((packOffsets blobs).flatMap fun o => int64le o) ++ blobs.flatten) := by
    unfold _pack_blobs
    rw [List.append_assoc]
  have hpre : (int64le (blobs.length : Int)
      ++ ((packOffsets blobs).flatMap fun o => int64le o)).length = 8 * (2 + blobs.length) := by
    simp only [List.length_append, length_int64le, length_flatMap_int64le, packOffsets_length]
    omega
  unfold _unpack_blobs
  rw [hB]
  rw [readI64_int64le _ (by omega) (by push_cast; omega)]
  simp only [Option.bind_eq_bind, Option.some_bind]
  rw [if_neg (by omega)]
  rw [show ((blobs.length : Int)).toNat = blobs.length from by omega,
    show blobs.length + 1 = (packOffsets blobs).length from (packOffsets_length blobs).symm]
  rw [readI64s_int64le _ (fun o ho => lt_of_le_of_lt (hbnd o ho) h) _]
  simp only [Option.some_bind]
  have hassert : ((packOffsets blobs).map Int.ofNat).getLast?
      = some (((int64le (blobs.length : Int)
          ++ (((packOffsets blobs).flatMap fun o => int64le o) ++ blobs.flatten)).length : Int)) := by
    rw [← List.append_assoc, List.length_append, hpre]
    rw [List.getLast?_map, packOffsets_eq_offsetsFrom, offsetsFrom_getLast?]
    rfl
  rw [if_pos hassert]
  congr 1
  rw [← List.map_dropLast, ← List.map_tail, List.zip_map]
  rw [List.map_map]
  have hcong : ∀ p ∈ (packOffsets blobs).dropLast.zip (packOffsets blobs).tail,
      ((fun q => pySlice (int64le (blobs.length : Int)
          ++ (((packOffsets blobs).flatMap fun o => int64le o) ++ blobs.flatten)) q.1 q.2)
        ∘ Prod.map Int.ofNat Int.ofNat) p
      = ((int64le (blobs.length : Int)
          ++ (((packOffsets blobs).flatMap fun o => int64le o) ++ blobs.flatten)).take p.2).drop
          p.1 := by
    intro p hp
    obtain ⟨h1, h2⟩ := List.of_mem_zip hp
    have hm1 : p.1 ∈ packOffsets blobs := List.dropLast_subset _ h1
    have hm2 : p.2 ∈ packOffsets blobs := List.tail_subset _ h2
    have hb1 : p.1 ≤ (int64le (blobs.length : Int)
        ++ (((packOffsets blobs).flatMap fun o => int64le o) ++ blobs.flatten)).length := by
      rw [← hB]; exact hbnd _ hm1
    have hb2 : p.2 ≤ (int64le (blobs.length : Int)
        ++ (((packOffsets blobs).flatMap fun o => int64le o) ++ blobs.flatten)).length := by
      rw [← hB]; exact hbnd _ hm2
    simp only [Function.comp_apply, Prod.map_apply]
    exact pySlice_coe _ _ _ hb1 hb2
  rw [List.map_congr_left hcong]
  have hslices := slices_offsetsFrom blobs
      (int64le (blobs.length : Int) ++ ((packOffsets blobs).flatMap fun o => int64le o))
  rw [hpre, List.append_assoc] at hslices
  rw [← packOffsets_eq_offsetsFrom] at hslices
  exact hslices

/-- Generalization of `readI64s_int64le` to signed values. -/
theorem readI64s_int64le_int (os : List Int)
    (h : ∀ o ∈ os, -(2 ^ 63) ≤ o ∧ o < 2 ^ 63) (rest : List Nat) :
    readI64s os.length ((os.flatMap fun o => int64le o) ++ rest) = some (os, rest) := by
  induction os with
  | nil => simp [readI64s]
  | cons o os' ih =>
    obtain ⟨hlo, hhi⟩ := h o (by simp)
    simp only [List.flatMap_cons, List.length_cons, List.append_assoc, readI64s,
      Option.bind_eq_bind]
    rw [readI64_int64le o hlo hhi _]
    simp only [Option.some_bind]
    rw [ih (fun x hx => h x (by simp [hx]))]
    rfl

/-- The envelope of `blobs` with the final header offset replaced by `v`
(all other bytes unchanged). -/
def corruptLastOffset (blobs : List (List Nat)) (v : Int) : List Nat :=
  int64le (blobs.length : Int)
    ++ ((packOffsets blobs).dropLast.flatMap fun o => int64le (o : Int))
    ++ int64le v ++ blobs.flatten

/-! ## The codec registry and the encoding session -/

/-- Model of the `register` decorator (source lines 20-25): `assert name
not in registry` runs **before** the insertion, so a duplicate
registration fails fast (the spec's DuplicateRegistration) with no
encode or decode attempted and with the registry unmodified.  Codec
classes are opaque here (identified by a `Nat`).  Returns (success?,
registry afterwards); `false` models the raised `AssertionError`. -/
def register (registry : List (String × Nat)) (name : String) (cls : Nat) :
    Bool × List (String × Nat) :=
  if (registry.lookup name).isSome then (false, registry)
  else (true, registry ++ [(name, cls)])

/-- Per-message encoding session (class `Encoding`, source lines
360-428): the blob store, the object-spec table, and (model only) the
uuid generation state.  Python dicts are insertion-ordered association
lists. -/
structure Session where
  blobs : List (String × List Nat) := []
  objectSpecs : List (String × EForm) := []
  nextId : Nat := 0
deriving DecidableEq

/-- A fresh session (`Encoding()`). -/
def Session.empty : Session := {}

/-- Injective model of `str(uuid.uuid4())`: the `n`-th id generated in a
session.  The code relies only on uuid4 ids being fresh and distinct;
the concrete hex text never matters. -/
def uuidStr (n : Nat) : String := String.mk (List.replicate n 'u')

/-- `add_blob` (source lines 420-423): copy the buffer (`memoryview(...).tobytes()`),
store it under a fresh id, return the `blob:`-prefixed reference. -/
def Session.add_blob (s : Session) (buffer : List Nat) : String × Session :=
  ("blob:" ++ uuidStr s.nextId,
    { s with blobs := s.blobs ++ [(uuidStr s.nextId, buffer)], nextId := s.nextId + 1 })

/-- `get_blob` (source lines 425-428): `assert blob_ref.startswith('blob:')`,
strip the 5-character prefix, look the id up.  `none` models the
`AssertionError` / `KeyError` (spec: ReferenceError). -/
def Session.get_blob (s : Session) (blob_ref : String) : Option (List Nat) :=
  match blob_ref.data with
  | 'b' :: 'l' :: 'o' :: 'b' :: ':' :: rest => s.blobs.lookup (String.mk rest)
  | _ => none

/-- Sessions whose stored blob ids were all generated by earlier
`add_blob` calls of the same session: ids at or past `nextId` are not
yet taken.  Holds for every session the code can build (uuid4 never
repeats) and is preserved by `add_blob`. -/
def Session.FreshIds (s : Session) : Prop :=
  ∀ m, s.nextId ≤ m → s.blobs.lookup (uuidStr m) = none

theorem uuidStr_injective : Function.Injective uuidStr := by
  intro a b h
  have : (List.replicate a 'u').length = (List.replicate b 'u').length := by
    rw [show List.replicate a 'u' = (uuidStr a).data from rfl, h]; rfl
  simpa using this

theorem get_blob_ref (s : Session) (id : String) :
    s.get_blob ("blob:" ++ id) = s.blobs.lookup id := by
  unfold Session.get_blob
  rw [String.data_append]
  show s.blobs.lookup (String.mk id.data) = s.blobs.lookup id
  rfl

/-! ## The `function` codec -/

/-- Modelled from the spec: the payload handled by the external
function-serialization facility (`vaex.serialize`, whose module is not
among the sources under verification).  A spec either names a
registered, known-safe function or carries an arbitrary executable
payload (pickled code). -/
inductive FunctionSpec where
  | known (name : String)
  | payload (code : String)
deriving DecidableEq

/-- A materialized function value (decode-side result). -/
inductive FunctionVal where
  | named (name : String)
  | exec (code : String)
deriving DecidableEq

/-- Modelled from the spec: `vaex.serialize.from_dict(spec, trusted=...)` —
"when false, the facility must refuse to materialize arbitrary
executable payloads" (§4.5).  `none` models the refusal error. -/
def serialize_from_dict (spec : FunctionSpec) (trusted : Bool) : Option FunctionVal :=
  match spec with
  | .known n => some (.named n)
  | .payload c => if trusted then some (.exec c) else none

/-- Model of `function_encoding.decode` (source lines 245-250), whose
Python signature is `decode(encoding, function_spec, trusted=False)`:
the `trusted` keyword parameter carries the default value `False`.
`trustedKw = none` models a call site that omits the keyword, in which
case the def-site default applies.  The outer `Option` is the call
outcome (`none` models a raised error); the inner `Option` is the
returned value (`none` for a `None` spec, passed through). -/
def function_decode (function_spec : Option FunctionSpec) (trustedKw : Option Bool) :
    Option (Option FunctionVal) :=
  let trusted := trustedKw.getD false
  match function_spec with
  | none => some none
  | some spec => (serialize_from_dict spec trusted).map some

/-! ## The binary envelope serializer -/

/-- Model of `binary.serialize` (source lines 472-478): blob 0 is the
JSON document `{data, blob_refs, objects}`; the session's blobs follow
in insertion order. -/
def binary_serialize (data : EForm) (encoding : Session) : List Nat :=
  _pack_blobs
    (serEForm (.obj [("data", data),
      ("blob_refs", .arr ((encoding.blobs.map Prod.fst).map EForm.str)),
      ("objects", .obj encoding.objectSpecs)])
    :: encoding.blobs.map Prod.snd)

/-- The elements of a JSON array of strings (the `blob_refs` list). -/
def asStrList : List EForm → Option (List String)
  | [] => some []
  | e :: es => do
    let s ← e.asStr
    let ss ← asStrList es
    pure (s :: ss)

/-- Model of `binary.deserialize` (source lines 480-488): unpack, parse
blob 0 as JSON, rebuild the blob store by zipping `blob_refs` with the
remaining blobs, restore the object-spec table, return `data`.  `none`
models any raised error (FormatError). -/
def binary_deserialize (data : List Nat) (encoding : Session) : Option (EForm × Session) := do
  let unpacked ← _unpack_blobs data
  match unpacked with
  | [] => none
  | json_blob :: blobs => do
    let doc ← jsonLoads json_blob
    let d ← doc.get? "data"
    let refsF ← doc.get? "blob_refs"
    let refs ← match refsF with
      | .arr items => asStrList items
      | _ => none
    let objsF ← doc.get? "objects"
    let objs ← match objsF with
      | .obj kvs => some kvs
      | _ => none
    pure (d, { encoding with blobs := refs.zip blobs, objectSpecs := objs })

theorem asStrList_map_str (l : List String) :
    asStrList (l.map EForm.str) = some l := by
  induction l with
  | nil => rfl
  | cons x xs ih => simp [asStrList, EForm.asStr, ih]

/-! ## dtypes and N-dimensional arrays -/

/-- Representative universe of numpy element types, one or more per
numpy kind handled by the `ndarray` codec: signed/unsigned integers,
floats, booleans, temporal types (`M`/`m` kinds), and `object`.  (The
code accepts any numpy dtype whose `str` form `np.dtype` parses back;
this finite universe stands for it, covering every kind.) -/
inductive DType where
  | int8 | int16 | int32 | int64
  | uint8 | uint16 | uint32 | uint64
  | float16 | float32 | float64
  | bool
  | datetime64ns | datetime64ms | timedelta64ns | timedelta64s
  | object
deriving DecidableEq

/-- `dtype.itemsize` in bytes. -/
def DType.itemsize : DType → Nat
  | .int8 | .uint8 | .bool => 1
  | .int16 | .uint16 | .float16 => 2
  | .int32 | .uint32 | .float32 => 4
  | _ => 8

/-- `dtype.kind`, numpy's kind character. -/
def DType.kind : DType → Char
  | .int8 | .int16 | .int32 | .int64 => 'i'
  | .uint8 | .uint16 | .uint32 | .uint64 => 'u'
  | .float16 | .float32 | .float64 => 'f'
  | .bool => 'b'
  | .datetime64ns | .datetime64ms => 'M'
  | .timedelta64ns | .timedelta64s => 'm'
  | .object => 'O'

/-- `str(dtype)`: numpy's canonical dtype string. -/
def DType.reprStr : DType → String
  | .int8 => "int8"
  | .int16 => "int16"
  | .int32 => "int32"
  | .int64 => "int64"
  | .uint8 => "uint8"
  | .uint16 => "uint16"
  | .uint32 => "uint32"
  | .uint64 => "uint64"
  | .float16 => "float16"
  | .float32 => "float32"
  | .float64 => "float64"
  | .bool => "bool"
  | .datetime64ns => "datetime64[ns]"
  | .datetime64ms => "datetime64[ms]"
  | .timedelta64ns => "timedelta64[ns]"
  | .timedelta64s => "timedelta64[s]"
  | .object => "object"

/-- Model of `dtype_encoding.encode` (source lines 196-199):
`str(dtype.internal)` as a JSON string. -/
def dtype_encode (dt : DType) : EForm := .str dt.reprStr

/-- `np.dtype(spec)` over the modelled universe; `none` models the
`TypeError` an unrecognized descriptor raises. -/
def npDtypeOfString (spec : String) : Option DType :=
  if spec = "int8" then some .int8
  else if spec = "int16" then some .int16
  else if spec = "int32" then some .int32
  else if spec = "int64" then some .int64
  else if spec = "uint8" then some .uint8
  else if spec = "uint16" then some .uint16
  else if spec = "uint32" then some .uint32
  else if spec = "uint64" then some .uint64
  else if spec = "float16" then some .float16
  else if spec = "float32" then some .float32
  else if spec = "float64" then some .float64
  else if spec = "bool" then some .bool
  else if spec = "datetime64[ns]" then some .datetime64ns
  else if spec = "datetime64[ms]" then some .datetime64ms
  else if spec = "timedelta64[ns]" then some .timedelta64ns
  else if spec = "timedelta64[s]" then some .timedelta64s
  else if spec = "object" then some .object
  else none

/-- Result of `dtype_encoding.decode`: a numpy dtype, or one of the
three Arrow types selected by their fixed special strings. -/
inductive DecodedDType where
  | np (dt : DType)
  | arrowString
  | arrowLargeString
  | arrowTimestampMs
deriving DecidableEq

/-- Model of `dtype_encoding.decode` (source lines 201-211): the three
special strings first, otherwise `np.dtype(type_spec)`. -/
def dtype_decode (type_spec : String) : Option DecodedDType :=
  if type_spec = "string" then some .arrowString
  else if type_spec = "large_string" then some .arrowLargeString
  else if type_spec = "timestamp[ms]" then some .arrowTimestampMs
  else (npDtypeOfString type_spec).map .np

/-- Whether a form is a JSON array (Python list). -/
def EForm.isArr : EForm → Bool
  | .arr _ => true
  | _ => false

/-- Flattened (C-order) element data of an ndarray.  For every
non-object dtype the codec moves raw bytes and never interprets the
values, so an element is its `itemsize`-byte bit pattern (a `Nat` below
`256^itemsize`); for dtype `object` the elements are Python objects
that survive `tolist()`/JSON (scalars in the modelled universe). -/
inductive ArrData where
  | words (ws : List Nat)
  | objs (vs : List EForm)
deriving DecidableEq

/-- A (possibly masked) numpy array: dtype, shape, flattened data, and
the flattened boolean mask for `np.ma` masked arrays. -/
structure NDArray where
  dtype : DType
  shape : List Nat
  data : ArrData
  mask : Option (List Bool) := none
deriving DecidableEq

/-- Structural well-formedness: what every real (masked) array of the
modelled universe satisfies by construction — data kind matches the
dtype, element count matches the shape, words fit the itemsize, object
elements are JSON scalars (not lists), the mask covers every element. -/
def NDArray.wf (a : NDArray) : Bool :=
  (match a.data with
   | .words ws => a.dtype != .object && ws.length == a.shape.prod
       && ws.all (fun w => w < 256 ^ a.dtype.itemsize)
   | .objs vs => a.dtype == .object && vs.length == a.shape.prod
       && vs.all (fun v => !v.isArr))
  && (match a.mask with
      | none => true
      | some m => m.length == a.shape.prod)

/-- The amended-claim side condition for object arrays: every dimension
before the last is nonzero (otherwise `np.array`'s nesting inference
cannot see the trailing dimensions of an empty array). -/
def NDArray.objShapeOk (a : NDArray) : Bool :=
  a.dtype != .object || a.shape.dropLast.all (fun n => n != 0)

/-- `memoryview(values).tobytes()` for an array of `k`-byte words
(C-order, native little-endian layout). -/
def wordsToBytes (k : Nat) (ws : List Nat) : List Nat := ws.flatMap (natLE k)

/-- Split a list into `m` consecutive chunks of `k` elements. -/
def chunksN : Nat → Nat → List α → List (List α)
  | 0, _, _ => []
  | m + 1, k, l => l.take k :: chunksN m k (l.drop k)

/-- `np.frombuffer(data, dtype)` for a `k`-byte dtype: reinterpret the
bytes as a flat word array; `none` models the `ValueError` when the
buffer size is not a multiple of the itemsize. -/
def bytesToWords (k : Nat) (bs : List Nat) : Option (List Nat) :=
  if k ≠ 0 ∧ bs.length % k = 0 then some ((chunksN (bs.length / k) k bs).map fromLE)
  else none

/-- Byte image of a boolean (mask) array: `numpy.bool_` stores one byte
per element, `1` for `True`. -/
def maskToBytes (m : List Bool) : List Nat := m.map (fun b => if b then 1 else 0)

/-- `np.frombuffer(data, dtype=np.bool_)`: a byte reads as `True` iff nonzero. -/
def bytesToMask (bs : List Nat) : List Bool := bs.map (fun b => b != 0)

/-- `array.tolist()` for an object array: nest the flattened elements
according to the shape (a 0-d array yields its single element). -/
def nestList : List Nat → List EForm → EForm
  | [], vs => vs.headD .null
  | n :: rest, vs => .arr ((chunksN n rest.prod vs).map (nestList rest))

mutual

/-- `np.array(data, dtype=object)`'s shape inference on nested lists:
the inferred shape and the flattened elements.  `none` models the
library's ragged-nesting error. -/
def inferArr : EForm → Option (List Nat × List EForm)
  | .arr xs => do
    let subs ← inferElems xs
    match subs with
    | [] => some ([0], [])
    | (s0, _) :: _ =>
      if subs.all (fun p => p.1 == s0) then
        some (xs.length :: s0, (subs.map Prod.snd).flatten)
      else none
  | e => some ([], [e])

/-- Shape inference over the elements of one nesting level. -/
def inferElems : List EForm → Option (List (List Nat × List EForm))
  | [] => some []
  | e :: es => do
    let p ← inferArr e
    let ps ← inferElems es
    pure (p :: ps)

end

/-- Model of `ndarray_encoding.encode` (source lines 129-156).  The
mask/data split (lines 133-139) is the `data`/`mask` fields; the
temporal `view(np.uint64)` (lines 140-141) leaves the byte image of the
words unchanged, so it is invisible at this level.  Object-typed
elements are exported as a nested JSON list (`values.tolist()`), all
other dtypes as one blob; a masked array adds a `mask` blob. -/
def ndarray_encode (s : Session) (array : NDArray) : EForm × Session :=
  match array.data, array.mask with
  | .objs vs, none =>
    (.obj [("values", nestList array.shape vs),
           ("shape", .arr (array.shape.map fun n => .int (Int.ofNat n))),
           ("dtype", dtype_encode array.dtype)], s)
  | .objs vs, some m =>
    let p := s.add_blob (maskToBytes m)
    (.obj [("values", nestList array.shape vs),
           ("shape", .arr (array.shape.map fun n => .int (Int.ofNat n))),
           ("dtype", dtype_encode array.dtype),
           ("mask", .str p.1)], p.2)
  | .words ws, none =>
    let p := s.add_blob (wordsToBytes array.dtype.itemsize ws)
    (.obj [("values", .str p.1),
           ("shape", .arr (array.shape.map fun n => .int (Int.ofNat n))),
           ("dtype", dtype_encode array.dtype)], p.2)
  | .words ws, some m =>
    let p := s.add_blob (wordsToBytes array.dtype.itemsize ws)
    let q := p.2.add_blob (maskToBytes m)
    (.obj [("values", .str p.1),
           ("shape", .arr (array.shape.map fun n => .int (Int.ofNat n))),
           ("dtype", dtype_encode array.dtype),
           ("mask", .str q.1)], q.2)

/-- A JSON list of non-negative numbers (the `shape` entry) back as naturals. -/
def asNatList : List EForm → Option (List Nat)
  | [] => some []
  | .int n :: es => if 0 ≤ n then (asNatList es).map (n.toNat :: ·) else none
  | _ => none

/-- Model of `ndarray_encoding.decode` (source lines 158-175) on a
mapping form.  (The list branch at lines 160-161 maps the decoder over
a sequence; `encode` never emits a sequence for this tag, so it lies
outside the modelled value universe.)  For dtype `object` the array is
rebuilt by `np.array(values, dtype)` — shape inference from the nesting,
the recorded `shape` entry unused — otherwise by
`np.frombuffer(blob).reshape(shape)`; a `mask` key rebuilds a masked
array.  `none` models any raised error.  The three Arrow dtypes the
dtype codec can return never reach the buffer path in the modelled
universe. -/
def ndarray_decode (s : Session) (result_encoded : EForm) : Option NDArray := do
  let dtF ← result_encoded.get? "dtype"
  let dtStr ← dtF.asStr
  let dt ← dtype_decode dtStr
  let shapeF ← result_encoded.get? "shape"
  let shape ← match shapeF with
    | .arr es => asNatList es
    | _ => none
  match dt with
  | .np dtype =>
    if dtype = .object then do
      let vF ← result_encoded.get? "values"
      let p ← inferArr vF
      match result_encoded.get? "mask" with
      | none => pure ⟨dtype, p.1, .objs p.2, none⟩
      | some mF => do
        let mref ← mF.asStr
        let mb ← s.get_blob mref
        let m := bytesToMask mb
        if m.length = shape.prod ∧ p.1 = shape then
          pure ⟨dtype, shape, .objs p.2, some m⟩
        else none
    else do
      let vF ← result_encoded.get? "values"
      let vref ← vF.asStr
      let data ← s.get_blob vref
      let ws ← bytesToWords dtype.itemsize data
      if ws.length = shape.prod then
        match result_encoded.get? "mask" with
        | none => pure ⟨dtype, shape, .words ws, none⟩
        | some mF => do
          let mref ← mF.asStr
          let mb ← s.get_blob mref
          let m := bytesToMask mb
          if m.length = shape.prod then
            pure ⟨dtype, shape, .words ws, some m⟩
          else none
      else none
  | _ => none

/-! ## The `arrow-array` codec

pyarrow (the columnar array library) is an external collaborator that
the spec scopes out and the codec consumes as an opaque capability: an
array type, a one-column-table IPC stream writer/reader, and the legacy
`pa.deserialize`.  They are modelled as injective serializations of an
abstract array value. -/

/-- A columnar (Arrow) array: an element-type tag and opaque cell
payloads. -/
structure ArrowArray where
  typ : String
  cells : List EForm
deriving DecidableEq

/-- An Arrow array embedded as a form (used by the opaque serializations
below). -/
def arrowArrayToForm (a : ArrowArray) : EForm :=
  .obj [("t", .str a.typ), ("c", .arr a.cells)]

/-- Partial inverse of `arrowArrayToForm`. -/
def arrowArrayOfForm (e : EForm) : Option ArrowArray := do
  let tF ← e.get? "t"
  let t ← tF.asStr
  let cF ← e.get? "c"
  match cF with
  | .arr cells => some ⟨t, cells⟩
  | _ => none

/-- A table as the IPC stream carries it: named columns, each a list of
chunks. -/
def ArrowTable := List (String × List ArrowArray)

/-- A table embedded as a form. -/
def tableToForm (cols : ArrowTable) : EForm :=
  .obj (cols.map fun p => (p.1, .arr (p.2.map arrowArrayToForm)))

/-- Chunks of one column back from their forms. -/
def arrowChunksOfForm : List EForm → Option (List ArrowArray)
  | [] => some []
  | e :: es => do
    let a ← arrowArrayOfForm e
    let tl ← arrowChunksOfForm es
    pure (a :: tl)

/-- Columns back from their forms. -/
def tableColsOfForm : List (String × EForm) → Option ArrowTable
  | [] => some []
  | (k, .arr chunks) :: rest => do
    let cas ← arrowChunksOfForm chunks
    let others ← tableColsOfForm rest
    pure ((k, cas) :: others)
  | _ => none

/-- Partial inverse of `tableToForm`. -/
def tableOfForm : EForm → Option ArrowTable
  | .obj kvs => tableColsOfForm kvs
  | _ => none

/-- Model of the pyarrow IPC stream writer
(`pa.ipc.new_stream` + `write_table`, source lines 104-108): an
injective byte serialization of the table. -/
def ipcWrite (t : ArrowTable) : List Nat := serEForm (tableToForm t)

/-- Model of the pyarrow IPC stream reader
(`pa.ipc.open_stream` + `read_all`, source lines 118-120). -/
def ipcRead (bs : List Nat) : Option ArrowTable := (jsonLoads bs).bind tableOfForm

/-- Model of the legacy `pa.deserialize` (source line 115): the older,
now-unsupported generic-object serialization of a single array, kept
readable for backward compatibility. -/
def paDeserialize (bs : List Nat) : Option ArrowArray :=
  (jsonLoads bs).bind arrowArrayOfForm

/-- Byte image of a legacy (`pyarrow.serialize`-era) envelope blob for
one array: what old writers produced and `paDeserialize` reads. -/
def paSerializeLegacy (a : ArrowArray) : List Nat := serEForm (arrowArrayToForm a)

/-- What `arrow_array_encoding.decode` returns: the single chunk
unwrapped to a plain array, or the chunked column as-is. -/
inductive ArrowVal where
  | plain (a : ArrowArray)
  | chunked (cs : List ArrowArray)
deriving DecidableEq

/-- Model of `arrow_array_encoding.encode` (source lines 102-109): write
the array as the single column `x` of a one-chunk table through the IPC
stream writer, store the stream as one blob, reference it under the
`arrow-ipc-blob` key. -/
def arrow_array_encode (s : Session) (array : ArrowArray) : EForm × Session :=
  let blob := ipcWrite [("x", [array])]
  let (r, s') := s.add_blob blob
  (.obj [("arrow-ipc-blob", .str r)], s')

/-- Model of `arrow_array_encoding.decode` (source lines 111-125): a
form carrying the legacy `arrow-serialized-blob` key goes through
`pa.deserialize` (backward compatibility); otherwise the
`arrow-ipc-blob` key is read (its absence raises — spec: FormatError),
the one-column table is checked (`assert table.num_columns == 1`) and a
single-chunk column is unwrapped. -/
def arrow_array_decode (s : Session) (result_encoded : EForm) : Option ArrowVal :=
  match result_encoded.get? "arrow-serialized-blob" with
  | some refF => do
    let r ← refF.asStr
    let blob ← s.get_blob r
    let a ← paDeserialize blob
    pure (.plain a)
  | none => do
    let refF ← result_encoded.get? "arrow-ipc-blob"
    let r ← refF.asStr
    let blob ← s.get_blob r
    let table ← ipcRead blob
    match table with
    | [(_, [a])] => pure (.plain a)
    | [(_, cs)] => pure (.chunked cs)
    | _ => none

/-! ## The `array` codec -/

/-- The runtime value universe of the `array` codec (source lines
78-97): dense (masked) numpy arrays, plain columnar arrays, plain
numbers.  `arrowChunked` arises only as a decode result (a multi-chunk
IPC column); `raw` is the pass-through payload of the `json` tag.
Whether the external `supported_arrow_array_types` tuple admits chunked
columnar values is outside the sources under verification; the modelled
columnar kind is the plain array. -/
inductive Value where
  | nd (a : NDArray)
  | arrow (a : ArrowArray)
  | arrowChunked (cs : List ArrowArray)
  | number (n : Int)
  | raw (e : EForm)
deriving DecidableEq

/-- Well-formedness of a codec input value over the modelled universe. -/
def Value.wf : Value → Bool
  | .nd a => a.wf
  | .arrow _ => true
  | .number _ => true
  | _ => false

/-- The amended-claim side condition (trivial except for object arrays). -/
def Value.objShapeOk : Value → Bool
  | .nd a => a.objShapeOk
  | _ => true

/-- Model of `array_encoding.encode` (source lines 80-93): dispatch on
the runtime kind and wrap the branch output with a `{type, data}`
discriminant; `none` models the raised `ValueError('Cannot encode: ...')`
(spec: UnsupportedValue). -/
def array_encode (s : Session) (v : Value) : Option (EForm × Session) :=
  match v with
  | .nd a =>
    let p := ndarray_encode s a
    some (.obj [("type", .str "ndarray"), ("data", p.1)], p.2)
  | .arrow a =>
    let p := arrow_array_encode s a
    some (.obj [("type", .str "arrow-array"), ("data", p.1)], p.2)
  | .number n => some (.obj [("type", .str "json"), ("data", .int n)], s)
  | _ => none

/-- Model of `array_encoding.decode` (source lines 95-97):
`encoding.decode(result_encoded['type'], result_encoded['data'])`.  The
`json` tag passes its payload through unchanged (a JSON number is the
original Python number).  Registry tags other than the three `encode`
produces lie outside the modelled value universe. -/
def array_decode (s : Session) (result_encoded : EForm) : Option Value := do
  let tF ← result_encoded.get? "type"
  let t ← tF.asStr
  let d ← result_encoded.get? "data"
  match t with
  | "ndarray" => (ndarray_decode s d).map Value.nd
  | "arrow-array" =>
    (arrow_array_decode s d).map fun
      | .plain a => Value.arrow a
      | .chunked cs => Value.arrowChunked cs
  | "json" => some (match d with | .int n => .number n | e => .raw e)
  | _ => none

/-! ## The `variable` codec and the UTF-8 step of its bytes branch -/

/-- Byte-exact model of Python's strict UTF-8 decoder
(`str(obj, encoding='utf-8')`): the decoded code points, or `none` for
the raised `UnicodeDecodeError` (invalid start byte, truncated or
ill-formed sequence, overlong encoding, surrogate). -/
def utf8Decode : List Nat → Option (List Nat)
  | [] => some []
  | c :: rest =>
    if c < 0x80 then (utf8Decode rest).map (c :: ·)
    else if 0xC2 ≤ c ∧ c ≤ 0xDF then
      match rest with
      | c2 :: rest2 =>
        if 0x80 ≤ c2 ∧ c2 ≤ 0xBF then
          (utf8Decode rest2).map (((c - 0xC0) * 64 + (c2 - 0x80)) :: ·)
        else none
      | [] => none
    else if 0xE0 ≤ c ∧ c ≤ 0xEF then
      match rest with
      | c2 :: c3 :: rest3 =>
        if ((if c = 0xE0 then 0xA0 else 0x80) ≤ c2 ∧ c2 ≤ (if c = 0xED then 0x9F else 0xBF))
            ∧ (0x80 ≤ c3 ∧ c3 ≤ 0xBF) then
          (utf8Decode rest3).map
            (((c - 0xE0) * 4096 + (c2 - 0x80) * 64 + (c3 - 0x80)) :: ·)
        else none
      | _ => none
    else if 0xF0 ≤ c ∧ c ≤ 0xF4 then
      match rest with
      | c2 :: c3 :: c4 :: rest4 =>
        if ((if c = 0xF0 then 0x90 else 0x80) ≤ c2 ∧ c2 ≤ (if c = 0xF4 then 0x8F else 0xBF))
            ∧ (0x80 ≤ c3 ∧ c3 ≤ 0xBF) ∧ (0x80 ≤ c4 ∧ c4 ≤ 0xBF) then
          (utf8Decode rest4).map
            (((c - 0xF0) * 262144 + (c2 - 0x80) * 4096 + (c3 - 0x80) * 64 + (c4 - 0x80)) :: ·)
        else none
      | _ => none
    else none

/-- The Python string of a list of code points. -/
def strOfCodepoints (cps : List Nat) : String := String.mk (cps.map Char.ofNat)

/-- The runtime value universe of the `variable` codec (source lines
254-284).  The branches for `vaex.hash.ordered_set`, `np.generic`,
`np.integer`, `np.floating`, the duplicate `np.ndarray` check and
`np.bytes_` concern values outside this universe (their classes live in
collaborator modules); the branches modelled here are the two wrapped
array kinds, raw Python `bytes`, and the JSON-safe scalars that pass
through unchanged. -/
inductive PyVal where
  | ndarray (a : NDArray)
  | arrowArr (a : ArrowArray)
  | arrowChunked (cs : List ArrowArray)
  | bytes (bs : List Nat)
  | pystr (s : String)
  | pyint (n : Int)
  | pybool (b : Bool)
  | pynone
  | json (e : EForm)
deriving DecidableEq

/-- Model of the `variable` codec's `encode` (source lines 256-277):
dispatch on the runtime kind; arrays get a `{type, data}` wrapper,
`bytes` becomes its UTF-8 decoding as a plain string
(`str(obj, encoding='utf-8')`, line 275) with **no** wrapper, everything
else passes through unchanged.  `none` models the `UnicodeDecodeError`
on non-UTF-8 bytes. -/
def variable_encode (s : Session) (obj : PyVal) : Option (EForm × Session) :=
  match obj with
  | .ndarray a =>
    let p := ndarray_encode s a
    some (.obj [("type", .str "ndarray"), ("data", p.1)], p.2)
  | .arrowArr a =>
    let p := arrow_array_encode s a
    some (.obj [("type", .str "arrow-array"), ("data", p.1)], p.2)
  | .arrowChunked _ => none
  | .bytes bs => (utf8Decode bs).map fun cps => (.str (strOfCodepoints cps), s)
  | .pystr t => some (.str t, s)
  | .pyint n => some (.int n, s)
  | .pybool b => some (.bool b, s)
  | .pynone => some (.null, s)
  | .json e => some (e, s)

/-- Model of the `variable` codec's `decode` (source lines 279-284): a
mapping dispatches on its `type` key through the registry, anything
else passes through untouched. -/
def variable_decode (s : Session) (obj_spec : EForm) : Option PyVal :=
  match obj_spec with
  | .obj kvs => do
    let tF ← EForm.get? (.obj kvs) "type"
    let t ← tF.asStr
    let d ← EForm.get? (.obj kvs) "data"
    match t with
    | "ndarray" => (ndarray_decode s d).map PyVal.ndarray
    | "arrow-array" =>
      (arrow_array_decode s d).map fun
        | .plain a => PyVal.arrowArr a
        | .chunked cs => PyVal.arrowChunked cs
    | _ => none
  | .str t => some (.pystr t)
  | .int n => some (.pyint n)
  | .bool b => some (.pybool b)
  | .null => some .pynone
  | e => some (.json e)

/-! ## Supporting lemmas for the codec round trips -/

theorem dtype_decode_encode (dt : DType) : dtype_decode dt.reprStr = some (.np dt) := by
  cases dt <;> rfl

theorem length_wordsToBytes (k : Nat) (ws : List Nat) :
    (wordsToBytes k ws).length = k * ws.length := by
  induction ws with
  | nil => simp [wordsToBytes]
  | cons w ws' ih =>
    simp only [wordsToBytes, List.flatMap_cons, List.length_append, length_natLE,
      List.length_cons]
    rw [show List.flatMap ws' (natLE k) = wordsToBytes k ws' from rfl, ih, Nat.mul_succ]
    omega

theorem chunksN_flatMap_natLE (k : Nat) (ws : List Nat) :
    chunksN ws.length k (ws.flatMap (natLE k)) = ws.map (natLE k) := by
  induction ws with
  | nil => rfl
  | cons w ws' ih =>
    have hlen : (natLE k w).length = k := length_natLE ..
    simp only [List.flatMap_cons, List.length_cons, chunksN, List.map_cons,
      List.take_left' hlen, List.drop_left' hlen, ih]

theorem bytesToWords_wordsToBytes (k : Nat) (hk : k ≠ 0) (ws : List Nat)
    (h : ∀ w ∈ ws, w < 256 ^ k) :
    bytesToWords k (wordsToBytes k ws) = some ws := by
  unfold bytesToWords
  rw [if_pos ⟨hk, by rw [length_wordsToBytes]; exact Nat.mul_mod_right k _⟩]
  rw [length_wordsToBytes, Nat.mul_div_cancel_left _ (by omega)]
  rw [show wordsToBytes k ws = ws.flatMap (natLE k) from rfl, chunksN_flatMap_natLE,
    List.map_map]
  congr 1
  exact List.map_congr_left (fun w hw => fromLE_natLE k w (h w hw)) |>.trans (List.map_id ws)

theorem bytesToMask_maskToBytes (m : List Bool) : bytesToMask (maskToBytes m) = m := by
  induction m with
  | nil => rfl
  | cons b bs ih =>
    simp only [maskToBytes, bytesToMask, List.map_cons] at *
    rw [ih]
    cases b <;> rfl

theorem asNatList_map_int (l : List Nat) :
    asNatList (l.map fun n => EForm.int (Int.ofNat n)) = some l := by
  induction l with
  | nil => rfl
  | cons n ns ih =>
    simp only [List.map_cons, asNatList]
    rw [if_pos (show (0 : Int) ≤ Int.ofNat n from Int.ofNat_le.mpr (Nat.zero_le n)), ih]
    rfl

theorem arrowArrayOfForm_toForm (a : ArrowArray) :
    arrowArrayOfForm (arrowArrayToForm a) = some a := rfl

theorem arrowChunksOfForm_map (l : List ArrowArray) :
    arrowChunksOfForm (l.map arrowArrayToForm) = some l := by
  induction l with
  | nil => rfl
  | cons a tl ih => simp [arrowChunksOfForm, arrowArrayOfForm_toForm, ih]

theorem tableOfForm_toForm (t : ArrowTable) : tableOfForm (tableToForm t) = some t := by
  show tableColsOfForm _ = _
  induction t with
  | nil => rfl
  | cons col rest ih =>
    obtain ⟨name, chunks⟩ := col
    simp only [List.map_cons, tableColsOfForm, arrowChunksOfForm_map, Option.bind_eq_bind,
      Option.some_bind]
    rw [show tableColsOfForm (List.map
        (fun p => (p.1, EForm.arr (List.map arrowArrayToForm p.2))) rest)
      = some rest from ih]
    rfl

theorem ipcRead_ipcWrite (t : ArrowTable) : ipcRead (ipcWrite t) = some t := by
  unfold ipcRead ipcWrite
  rw [jsonLoads_serEForm]
  simpa using tableOfForm_toForm t

theorem paDeserialize_legacy (a : ArrowArray) :
    paDeserialize (paSerializeLegacy a) = some a := by
  unfold paDeserialize paSerializeLegacy
  rw [jsonLoads_serEForm]
  rfl

theorem uuid_beq_false {a b : Nat} (h : a ≠ b) : (uuidStr a == uuidStr b) = false :=
  beq_eq_false_iff_ne.mpr fun hh => h (uuidStr_injective hh)

theorem chunksN_length (m k : Nat) (l : List α) : (chunksN m k l).length = m := by
  induction m generalizing l with
  | zero => rfl
  | succ m' ih => simp [chunksN, ih]

theorem chunksN_flatten (m k : Nat) (l : List α) (h : l.length = m * k) :
    (chunksN m k l).flatten = l := by
  induction m generalizing l with
  | zero =>
    rw [Nat.zero_mul] at h
    rw [List.eq_nil_of_length_eq_zero h]
    rfl
  | succ m' ih =>
    simp only [chunksN, List.flatten_cons]
    rw [ih (l.drop k) (by rw [List.length_drop]; rw [Nat.succ_mul] at h; omega),
      List.take_append_drop]

theorem infer_scalar (v : EForm) (h : v.isArr = false) : inferArr v = some ([], [v]) := by
  cases v <;> simp_all [inferArr, EForm.isArr]

/-- `np.array` inverts `tolist` for object arrays whose non-final
dimensions are nonzero. -/
theorem infer_nest (shape : List Nat) :
    ∀ vs : List EForm, vs.length = shape.prod → (∀ v ∈ vs, v.isArr = false) →
      shape.dropLast.all (fun n => n != 0) = true →
      inferArr (nestList shape vs) = some (shape, vs) := by
  induction shape with
  | nil =>
    intro vs hlen hsc _
    obtain ⟨v, rfl⟩ : ∃ v, vs = [v] := List.length_eq_one.mp (by simpa using hlen)
    exact infer_scalar v (hsc v (by simp))
  | cons n rest ih =>
    intro vs hlen hsc hz
    have hzrest : rest.dropLast.all (fun n => n != 0) = true := by
      cases rest with
      | nil => rfl
      | cons r rs =>
        rw [List.dropLast_cons₂] at hz
        simp only [List.all_cons, Bool.and_eq_true] at hz
        exact hz.2
    cases n with
    | zero =>
      cases rest with
      | nil =>
        simp only [List.prod_cons, List.prod_nil] at hlen
        have : vs = [] := List.eq_nil_of_length_eq_zero (by omega)
        subst this
        simp [nestList, chunksN, inferArr, inferElems]
      | cons r rs =>
        exfalso
        rw [List.dropLast_cons₂, List.all_cons] at hz
        simp at hz
    | succ m =>
      have hElems : ∀ (cnt : Nat) (ws : List EForm), ws.length = cnt * rest.prod →
          (∀ v ∈ ws, v.isArr = false) →
          inferElems ((chunksN cnt rest.prod ws).map (nestList rest))
            = some ((chunksN cnt rest.prod ws).map fun c => (rest, c)) := by
        intro cnt
        induction cnt with
        | zero => intro ws _ _; simp [chunksN, inferElems]
        | succ c ihc =>
          intro ws hw hsc'
          simp only [chunksN, List.map_cons, inferElems, Option.bind_eq_bind]
          rw [ih (ws.take rest.prod)
              (by rw [List.length_take]; rw [Nat.succ_mul] at hw; omega)
              (fun v hv => hsc' v (List.mem_of_mem_take hv)) hzrest]
          simp only [Option.some_bind]
          rw [ihc (ws.drop rest.prod)
              (by rw [List.length_drop]; rw [Nat.succ_mul] at hw; omega)
              (fun v hv => hsc' v (List.mem_of_mem_drop hv))]
          rfl
      simp only [nestList, inferArr, Option.bind_eq_bind]
      rw [hElems (m + 1) vs (by simpa [List.prod_cons] using hlen) hsc]
      simp only [Option.some_bind, chunksN, List.map_cons]
      rw [if_pos (by simp [List.all_map])]
      simp only [Option.some.injEq, Prod.mk.injEq]
      constructor
      · simp [chunksN_length]
      · rw [List.map_map]
        rw [show (Prod.snd ∘ fun c => (rest, c)) = (id : List EForm → List EForm) from rfl]
        rw [List.map_id]
        exact chunksN_flatten (m + 1) rest.prod vs (by simpa [List.prod_cons] using hlen)

theorem itemsize_ne_zero (dt : DType) : dt.itemsize ≠ 0 := by
  cases dt <;> simp [DType.itemsize]

/-- Codec-level round trip of the `ndarray` codec from a fresh session. -/
theorem ndarray_roundtrip (a : NDArray) (hwf : a.wf = true) (hos : a.objShapeOk = true) :
    ndarray_decode (ndarray_encode Session.empty a).2 (ndarray_encode Session.empty a).1
      = some a := by
  obtain ⟨dtype, shape, data, mask⟩ := a
  cases data with
  | words ws =>
    simp only [NDArray.wf, Bool.and_eq_true, bne_iff_ne, ne_eq, beq_iff_eq,
      List.all_eq_true, decide_eq_true_eq] at hwf
    obtain ⟨⟨⟨hne, hlen⟩, hbound⟩, hmaskl⟩ := hwf
    have hbw := bytesToWords_wordsToBytes dtype.itemsize (itemsize_ne_zero dtype) ws hbound
    cases mask with
    | none =>
      have henc : ndarray_encode Session.empty ⟨dtype, shape, .words ws, none⟩
          = (.obj [("values", .str ("blob:" ++ uuidStr 0)),
                   ("shape", .arr (shape.map fun n => .int (Int.ofNat n))),
                   ("dtype", .str dtype.reprStr)],
             ⟨[(uuidStr 0, wordsToBytes dtype.itemsize ws)], [], 1⟩) := rfl
      rw [henc]
      simp only [ndarray_decode, EForm.get?, List.lookup, EForm.asStr, String.reduceBEq,
        String.reduceEq, dtype_decode_encode, asNatList_map_int, Option.bind_eq_bind,
        Option.some_bind, beq_self_eq_true, if_neg hne, get_blob_ref, hbw]
      rw [if_pos hlen]
      rfl
    | some m =>
      have henc : ndarray_encode Session.empty ⟨dtype, shape, .words ws, some m⟩
          = (.obj [("values", .str ("blob:" ++ uuidStr 0)),
                   ("shape", .arr (shape.map fun n => .int (Int.ofNat n))),
                   ("dtype", .str dtype.reprStr),
                   ("mask", .str ("blob:" ++ uuidStr 1))],
             ⟨[(uuidStr 0, wordsToBytes dtype.itemsize ws),
               (uuidStr 1, maskToBytes m)], [], 2⟩) := rfl
      rw [henc]
      simp only [ndarray_decode, EForm.get?, List.lookup, EForm.asStr, String.reduceBEq,
        String.reduceEq, dtype_decode_encode, asNatList_map_int, Option.bind_eq_bind,
        Option.some_bind, beq_self_eq_true, if_neg hne, get_blob_ref,
        uuid_beq_false (by omega : (1 : Nat) ≠ 0), hbw, bytesToMask_maskToBytes]
      rw [if_pos hlen, if_pos (by simp at hmaskl; omega)]
      rfl
  | objs vs =>
    simp only [NDArray.wf, Bool.and_eq_true, bne_iff_ne, ne_eq, beq_iff_eq,
      List.all_eq_true, decide_eq_true_eq] at hwf
    obtain ⟨⟨⟨hO, hlen⟩, hsc⟩, hmaskl⟩ := hwf
    simp only [NDArray.objShapeOk, hO] at hos
    have hinf := infer_nest shape vs hlen
      (fun v hv => by simpa using hsc v hv) (by simpa using hos)
    cases mask with
    | none =>
      have henc : ndarray_encode Session.empty ⟨dtype, shape, .objs vs, none⟩
          = (.obj [("values", nestList shape vs),
                   ("shape", .arr (shape.map fun n => .int (Int.ofNat n))),
                   ("dtype", .str dtype.reprStr)],
             Session.empty) := rfl
      rw [henc]
      simp only [ndarray_decode, EForm.get?, List.lookup, EForm.asStr, String.reduceBEq,
        String.reduceEq, dtype_decode_encode, asNatList_map_int, Option.bind_eq_bind,
        Option.some_bind, beq_self_eq_true, hO, if_pos rfl, hinf]
      rfl
    | some m =>
      have henc : ndarray_encode Session.empty ⟨dtype, shape, .objs vs, some m⟩
          = (.obj [("values", nestList shape vs),
                   ("shape", .arr (shape.map fun n => .int (Int.ofNat n))),
                   ("dtype", .str dtype.reprStr),
                   ("mask", .str ("blob:" ++ uuidStr 0))],
             ⟨[(uuidStr 0, maskToBytes m)], [], 1⟩) := rfl
      rw [henc]
      simp only [ndarray_decode, EForm.get?, List.lookup, EForm.asStr, String.reduceBEq,
        String.reduceEq, dtype_decode_encode, asNatList_map_int, Option.bind_eq_bind,
        Option.some_bind, beq_self_eq_true, hO, if_pos rfl, hinf, get_blob_ref,
        bytesToMask_maskToBytes]
      rw [if_pos (show m.length = shape.prod ∧ True by refine ⟨?_, trivial⟩; simp at hmaskl; omega)]
      rfl

/-- Whatever form the `ndarray` decoder accepts, the result is a masked
array exactly when the form carries the `mask` key. -/
theorem ndarray_decode_mask_iff (s : Session) (e : EForm) (a : NDArray)
    (h : ndarray_decode s e = some a) :
    a.mask.isSome ↔ (e.get? "mask").isSome := by
  unfold ndarray_decode at h
  simp only [Option.bind_eq_bind, Option.bind_eq_some] at h
  obtain ⟨dtF, -, dtStr, -, dt, -, shapeF, -, h⟩ := h
  cases shapeF with
  | arr es =>
    simp only [Option.bind_eq_some] at h
    obtain ⟨shape, -, h⟩ := h
    cases dt with
    | np dtype =>
      simp only at h
      by_cases hO : dtype = DType.object
      · rw [if_pos hO] at h
        simp only [Option.bind_eq_some] at h
        obtain ⟨vF, -, p, -, h⟩ := h
        cases hm : e.get? "mask" with
        | none => rw [hm] at h; cases h; simp [hm]
        | some mF =>
          rw [hm] at h
          simp only [Option.bind_eq_some] at h
          obtain ⟨mref, -, mb, -, h⟩ := h
          split at h
          · cases h; simp [hm]
          · exact absurd h (by simp)
      · rw [if_neg hO] at h
        simp only [Option.bind_eq_some] at h
        obtain ⟨vF, -, vref, -, data, -, ws, -, h⟩ := h
        split at h
        · cases hm : e.get? "mask" with
          | none => rw [hm] at h; cases h; simp [hm]
          | some mF =>
            rw [hm] at h
            simp only [Option.bind_eq_some] at h
            obtain ⟨mref, -, mb, -, h⟩ := h
            split at h
            · cases h; simp [hm]
            · exact absurd h (by simp)
        · exact absurd h (by simp)
    | arrowString => simp at h
    | arrowLargeString => simp at h
    | arrowTimestampMs => simp at h
  | null => simp at h
  | bool b => simp at h
  | int n => simp at h
  | str t => simp at h
  | obj kvs => simp at h

/-- Codec-level round trip of the `arrow-array` codec from a fresh
session: the single chunk comes back unwrapped as the plain array. -/
theorem arrow_roundtrip (a : ArrowArray) :
    arrow_array_decode (arrow_array_encode Session.empty a).2
      (arrow_array_encode Session.empty a).1 = some (.plain a) := by
  have henc : arrow_array_encode Session.empty a
      = (.obj [("arrow-ipc-blob", .str ("blob:" ++ uuidStr 0))],
         ⟨[(uuidStr 0, ipcWrite [("x", [a])])], [], 1⟩) := rfl
  rw [henc]
  unfold arrow_array_decode
  simp only [EForm.get?, List.lookup, String.reduceBEq, EForm.asStr, Option.bind_eq_bind,
    Option.some_bind, get_blob_ref, beq_self_eq_true, ipcRead_ipcWrite]
  rfl

theorem pack_slices (blobs : List (List Nat)) :
    ((packOffsets blobs).dropLast.zip (packOffsets blobs).tail).map
      (fun p => ((_pack_blobs blobs).take p.2).drop p.1) = blobs := by
  have hpre : (int64le (blobs.length : Int)
      ++ ((packOffsets blobs).flatMap fun o => int64le o)).length = 8 * (2 + blobs.length) := by
    simp only [List.length_append, length_int64le, length_flatMap_int64le, packOffsets_length]
    omega
  have hslices := slices_offsetsFrom blobs
    (int64le (blobs.length : Int) ++ ((packOffsets blobs).flatMap fun o => int64le o))
  rw [hpre, ← packOffsets_eq_offsetsFrom] at hslices
  exact hslices

theorem corruptLastOffset_length (blobs : List (List Nat)) (v : Int) :
    (corruptLastOffset blobs v).length = (_pack_blobs blobs).length := by
  unfold corruptLastOffset
  rw [_pack_blobs_length]
  simp only [List.length_append, length_int64le, length_flatMap_int64le,
    List.length_dropLast, packOffsets_length]
  omega

theorem corruptLastOffset_correct_at (blobs : List (List Nat)) (w : Nat)
    (hw : (packOffsets blobs).getLast? = some w) :
    corruptLastOffset blobs (w : Int) = _pack_blobs blobs := by
  have hde := List.dropLast_append_getLast? w (by rw [hw]; rfl)
  unfold corruptLastOffset _pack_blobs
  conv_rhs => rw [← hde]
  rw [List.flatMap_append, List.flatMap_singleton]
  simp only [List.append_assoc]

theorem corruptLastOffset_correct (blobs : List (List Nat)) :
    corruptLastOffset blobs (((_pack_blobs blobs).length : Nat) : Int) = _pack_blobs blobs :=
  corruptLastOffset_correct_at blobs _
    (by rw [packOffsets_eq_offsetsFrom, offsetsFrom_getLast?, _pack_blobs_length])

/-! ## Claim theorems -/

/-- C3: packing `M` blobs yields a buffer beginning with a header of
`M + 2` 8-byte signed native-order integers — the count `M`, then `M + 1`
offsets — where `offset[0]` is the header length `8*(M+2)`, `offset[M]`
is the total buffer length, blob `i` occupies bytes
`[offset[i], offset[i+1])`, and the offsets are non-decreasing.  (The
hypothesis keeps the header words inside the signed 64-bit range
`struct.pack('q', ...)` represents.) -/
theorem claim3_pack_header (blobs : List (List Nat))
    (h : (_pack_blobs blobs).length < 2 ^ 63) :
    (packOffsets blobs).length = blobs.length + 1
    ∧ _pack_blobs blobs
        = int64le (blobs.length : Int)
          ++ ((packOffsets blobs).flatMap fun o => int64le (o : Int)) ++ blobs.flatten
    ∧ (packOffsets blobs).head? = some (8 * (blobs.length + 2))
    ∧ (packOffsets blobs).getLast? = some (_pack_blobs blobs).length
    ∧ (∀ o ∈ packOffsets blobs, o < 2 ^ 63)
    ∧ ((packOffsets blobs).dropLast.zip (packOffsets blobs).tail).map
        (fun p => ((_pack_blobs blobs).take p.2).drop p.1) = blobs
    ∧ List.Chain' (· ≤ ·) (packOffsets blobs) := by
  refine ⟨packOffsets_length blobs, rfl, ?_, ?_, ?_, pack_slices blobs, ?_⟩
  · rw [packOffsets_eq_offsetsFrom, offsetsFrom_head?]
    congr 1
    omega
  · rw [packOffsets_eq_offsetsFrom, offsetsFrom_getLast?, _pack_blobs_length]
  · intro o ho
    rw [packOffsets_eq_offsetsFrom] at ho
    have := offsetsFrom_mem_bounds _ _ o ho
    have hl := _pack_blobs_length blobs
    omega
  · rw [packOffsets_eq_offsetsFrom]
    exact offsetsFrom_chain_le _ _

/-- C3 witness: the header layout at a concrete two-blob envelope. -/
theorem claim3_pack_header_witness :
    ((_pack_blobs [[7], [8, 9]]).length < 2 ^ 63)
    ∧ ((packOffsets [[7], [8, 9]]).length = 2 + 1
      ∧ _pack_blobs [[7], [8, 9]]
          = int64le (([[7], [8, 9]] : List (List Nat)).length : Int)
            ++ ((packOffsets [[7], [8, 9]]).flatMap fun o => int64le (o : Int))
            ++ ([[7], [8, 9]] : List (List Nat)).flatten
      ∧ (packOffsets [[7], [8, 9]]).head? = some (8 * (2 + 2))
      ∧ (packOffsets [[7], [8, 9]]).getLast? = some (_pack_blobs [[7], [8, 9]]).length
      ∧ (∀ o ∈ packOffsets [[7], [8, 9]], o < 2 ^ 63)
      ∧ ((packOffsets [[7], [8, 9]]).dropLast.zip (packOffsets [[7], [8, 9]]).tail).map
          (fun p => ((_pack_blobs [[7], [8, 9]]).take p.2).drop p.1) = [[7], [8, 9]]
      ∧ List.Chain' (· ≤ ·) (packOffsets [[7], [8, 9]])) :=
  ⟨by decide, claim3_pack_header [[7], [8, 9]] (by decide)⟩

/-- C4 counterexample: in the envelope of blobs `[1,2,3]` and `[4,5]`
(offsets 32, 35, 37), changing the first offset to the incorrect value
33 (byte 8 of the buffer) is **not** detected: unpacking succeeds and
silently returns a wrong first blob, rather than failing with
FormatError. -/
theorem claim4_counterexample :
    ((_pack_blobs [[1, 2, 3], [4, 5]]).set 8 33
        = int64le 2 ++ int64le 33 ++ int64le 35 ++ int64le 37 ++ [1, 2, 3, 4, 5])
    ∧ _unpack_blobs ((_pack_blobs [[1, 2, 3], [4, 5]]).set 8 33) = some [[2, 3], [4, 5]]
    ∧ some [[2, 3], [4, 5]] ≠ some [[1, 2, 3], [4, 5]]
    ∧ _unpack_blobs ((_pack_blobs [[1, 2, 3], [4, 5]]).set 8 33) ≠ none := by decide

/-- C4 (amended): only the **final** header offset is integrity-checked.
Replacing it with any incorrect signed 64-bit value makes `_unpack_blobs`
fail (the `assert offsets[-1] == len(bytes)`, the spec's FormatError);
replacing it with the correct value reproduces the packed envelope
byte-for-byte.  Corruption of the earlier offsets is silently tolerated
(see the counterexample). -/
theorem claim4_amended (blobs : List (List Nat)) (v : Int)
    (hsz : (_pack_blobs blobs).length < 2 ^ 63)
    (hlo : -(2 ^ 63) ≤ v) (hhi : v < 2 ^ 63)
    (hv : v ≠ ((_pack_blobs blobs).length : Int)) :
    corruptLastOffset blobs (((_pack_blobs blobs).length : Nat) : Int) = _pack_blobs blobs
    ∧ _unpack_blobs (corruptLastOffset blobs v) = none := by
  refine ⟨corruptLastOffset_correct blobs, ?_⟩
  have hlen := _pack_blobs_length blobs
  have hclen := corruptLastOffset_length blobs v
  have hB : corruptLastOffset blobs v
      = int64le (blobs.length : Int)
        ++ ((((packOffsets blobs).dropLast.map Int.ofNat ++ [v]).flatMap fun o => int64le o)
          ++ blobs.flatten) := by
    unfold corruptLastOffset
    rw [List.flatMap_append, List.flatMap_singleton, List.flatMap_map]
    simp only [List.append_assoc, Function.comp_def]
    rfl
  have hos : ∀ o ∈ (packOffsets blobs).dropLast.map Int.ofNat ++ [v],
      -(2 ^ 63) ≤ o ∧ o < 2 ^ 63 := by
    intro o ho
    rw [List.mem_append] at ho
    rcases ho with ho | ho
    · obtain ⟨x, hx, rfl⟩ := List.mem_map.mp ho
      have hx' : x ∈ packOffsets blobs := List.dropLast_subset _ hx
      rw [packOffsets_eq_offsetsFrom] at hx'
      have hbd := offsetsFrom_mem_bounds _ _ x hx'
      rw [Int.ofNat_eq_natCast]
      omega
    · simp at ho
      omega
  unfold _unpack_blobs
  rw [hB, readI64_int64le _ (by omega) (by push_cast; omega)]
  simp only [Option.bind_eq_bind, Option.some_bind]
  rw [if_neg (by omega)]
  rw [show ((blobs.length : Int)).toNat = blobs.length from by omega]
  have hoslen : ((packOffsets blobs).dropLast.map Int.ofNat ++ [v]).length
      = blobs.length + 1 := by
    simp [List.length_dropLast, packOffsets_length]
  rw [← hoslen, readI64s_int64le_int _ hos _]
  simp only [Option.some_bind]
  rw [if_neg ?hne]
  case hne =>
    rw [List.getLast?_concat]
    rw [← hB, hclen]
    simp only [Option.some.injEq]
    exact hv

/-- C4 (amended) witness: the final-offset check at a concrete envelope. -/
theorem claim4_amended_witness :
    ((_pack_blobs [[6]]).length < 2 ^ 63 ∧ -(2 ^ 63) ≤ (0 : Int) ∧ (0 : Int) < 2 ^ 63
      ∧ (0 : Int) ≠ ((_pack_blobs [[6]]).length : Int))
    ∧ (corruptLastOffset [[6]] (((_pack_blobs [[6]]).length : Nat) : Int) = _pack_blobs [[6]]
      ∧ _unpack_blobs (corruptLastOffset [[6]] 0) = none) :=
  ⟨⟨by decide, by decide, by decide, by decide⟩,
    claim4_amended [[6]] 0 (by decide) (by decide) (by decide) (by decide)⟩

/-- C5 counterexample: packing three blobs of lengths 5, 0, 7 produces
the offsets 40, 45, 45, 52 — **not** strictly increasing (the
zero-length second blob makes two offsets coincide). -/
theorem claim5_counterexample :
    packOffsets [[0, 0, 0, 0, 0], ([] : List Nat), [0, 0, 0, 0, 0, 0, 0]] = [40, 45, 45, 52]
    ∧ ¬ List.Chain' (· < ·)
        (packOffsets [[0, 0, 0, 0, 0], ([] : List Nat), [0, 0, 0, 0, 0, 0, 0]]) := by
  have h : packOffsets [[0, 0, 0, 0, 0], ([] : List Nat), [0, 0, 0, 0, 0, 0, 0]]
      = [40, 45, 45, 52] := by decide
  refine ⟨h, ?_⟩
  rw [h]
  norm_num [List.chain'_cons]

/-- C5 (amended): packing exactly three blobs of lengths 5, 0 and 7
yields the header count word 3 and the four **non-decreasing** offsets
40, 45, 45, 52 (strictly increasing except at the empty blob), and
unpacking the envelope returns the three original byte strings in their
original order. -/
theorem claim5_amended (b1 b2 b3 : List Nat)
    (h1 : b1.length = 5) (h2 : b2.length = 0) (h3 : b3.length = 7) :
    packOffsets [b1, b2, b3] = [40, 45, 45, 52]
    ∧ (_pack_blobs [b1, b2, b3]).take 8 = int64le 3
    ∧ List.Chain' (· ≤ ·) (packOffsets [b1, b2, b3])
    ∧ _unpack_blobs (_pack_blobs [b1, b2, b3]) = some [b1, b2, b3] := by
  have hoffs : packOffsets [b1, b2, b3] = [40, 45, 45, 52] := by
    simp [packOffsets, cumsum, h1, h2, h3]
  refine ⟨hoffs, ?_, by rw [hoffs]; norm_num [List.chain'_cons], ?_⟩
  · unfold _pack_blobs
    rw [List.append_assoc]
    exact List.take_left' (length_int64le _)
  · apply unpack_pack
    rw [_pack_blobs_length]
    simp only [List.flatten_cons, List.flatten_nil, List.length_append, List.length_cons,
      List.length_nil, h1, h2, h3]
    norm_num

/-- C5 (amended) witness: the 5/0/7 scenario at concrete byte strings. -/
theorem claim5_amended_witness :
    (([1, 2, 3, 4, 5] : List Nat).length = 5 ∧ ([] : List Nat).length = 0
      ∧ ([9, 9, 9, 9, 9, 9, 9] : List Nat).length = 7)
    ∧ (packOffsets [[1, 2, 3, 4, 5], [], [9, 9, 9, 9, 9, 9, 9]] = [40, 45, 45, 52]
      ∧ (_pack_blobs [[1, 2, 3, 4, 5], [], [9, 9, 9, 9, 9, 9, 9]]).take 8 = int64le 3
      ∧ List.Chain' (· ≤ ·) (packOffsets [[1, 2, 3, 4, 5], [], [9, 9, 9, 9, 9, 9, 9]])
      ∧ _unpack_blobs (_pack_blobs [[1, 2, 3, 4, 5], [], [9, 9, 9, 9, 9, 9, 9]])
          = some [[1, 2, 3, 4, 5], [], [9, 9, 9, 9, 9, 9, 9]]) :=
  ⟨⟨rfl, rfl, rfl⟩, claim5_amended _ _ _ rfl rfl rfl⟩

/-- C8: registering a codec under a tag already present in the registry
fails immediately at registration time (the assertion runs before the
insertion and before any encode or decode could be attempted) and
leaves the registry unchanged. -/
theorem claim8_register_duplicate (registry : List (String × Nat)) (name : String)
    (cls cls' : Nat) (h : registry.lookup name = some cls') :
    register registry name cls = (false, registry) := by
  unfold register
  rw [h]
  rfl

/-- C8 witness: duplicate registration of the tag `json`. -/
theorem claim8_register_duplicate_witness :
    ([("json", 0)] : List (String × Nat)).lookup "json" = some 0
    ∧ register [("json", 0)] "json" 1 = (false, [("json", 0)]) :=
  ⟨by decide, claim8_register_duplicate [("json", 0)] "json" 1 0 (by decide)⟩

/-- C9: two successive `add_blob` calls with identical byte content
return two distinct references, each independently resolvable by
`get_blob` to the stored bytes — blob ids are never deduplicated by
content.  (`FreshIds` states that the session's existing ids were
generated by its own earlier `add_blob` calls, which uuid4 guarantees.) -/
theorem claim9_add_blob_no_dedup (s : Session) (b : List Nat) (hWF : s.FreshIds) :
    ((s.add_blob b).1 ≠ ((s.add_blob b).2.add_blob b).1)
    ∧ ((s.add_blob b).2.add_blob b).2.get_blob (s.add_blob b).1 = some b
    ∧ ((s.add_blob b).2.add_blob b).2.get_blob ((s.add_blob b).2.add_blob b).1 = some b := by
  refine ⟨?_, ?_, ?_⟩
  · intro hcontra
    unfold Session.add_blob at hcontra
    simp only at hcontra
    have hdata := congrArg String.data hcontra
    rw [String.data_append, String.data_append] at hdata
    have := List.append_cancel_left hdata
    have huu : uuidStr s.nextId = uuidStr (s.nextId + 1) := by
      have h1 : uuidStr s.nextId = String.mk (uuidStr s.nextId).data := rfl
      have h2 : uuidStr (s.nextId + 1) = String.mk (uuidStr (s.nextId + 1)).data := rfl
      rw [h1, h2, this]
    exact absurd (uuidStr_injective huu) (by omega)
  · show Session.get_blob _ ("blob:" ++ uuidStr s.nextId) = some b
    rw [get_blob_ref]
    show List.lookup _ ((s.blobs ++ [(uuidStr s.nextId, b)]) ++ [(uuidStr (s.nextId + 1), b)])
      = some b
    rw [List.lookup_append, List.lookup_append, hWF s.nextId (le_refl _)]
    simp [List.lookup]
  · show Session.get_blob _ ("blob:" ++ uuidStr (s.nextId + 1)) = some b
    rw [get_blob_ref]
    show List.lookup _ ((s.blobs ++ [(uuidStr s.nextId, b)]) ++ [(uuidStr (s.nextId + 1), b)])
      = some b
    rw [List.lookup_append, List.lookup_append, hWF (s.nextId + 1) (by omega)]
    simp [List.lookup, uuid_beq_false (show s.nextId + 1 ≠ s.nextId by omega)]

/-- C9 witness: no content deduplication, at a fresh session and the
byte string `[1, 2]`. -/
theorem claim9_add_blob_no_dedup_witness :
    Session.empty.FreshIds
    ∧ ((Session.empty.add_blob [1, 2]).1 ≠ ((Session.empty.add_blob [1, 2]).2.add_blob [1, 2]).1
      ∧ ((Session.empty.add_blob [1, 2]).2.add_blob [1, 2]).2.get_blob
          (Session.empty.add_blob [1, 2]).1 = some [1, 2]
      ∧ ((Session.empty.add_blob [1, 2]).2.add_blob [1, 2]).2.get_blob
          ((Session.empty.add_blob [1, 2]).2.add_blob [1, 2]).1 = some [1, 2]) :=
  ⟨fun _ _ => rfl, claim9_add_blob_no_dedup Session.empty [1, 2] (fun _ _ => rfl)⟩

/-- C2: deserializing the serialized binary envelope returns the root
form unchanged and restores, on the fresh decode-side session, a blob
store mapping exactly the original ids to the original byte contents
and the original object-spec table.  (The hypothesis keeps the header
words representable as signed 64-bit integers.) -/
theorem claim2_binary_roundtrip (data : EForm) (enc fresh : Session)
    (h : (binary_serialize data enc).length < 2 ^ 63) :
    binary_deserialize (binary_serialize data enc) fresh
      = some (data, { fresh with blobs := enc.blobs, objectSpecs := enc.objectSpecs }) := by
  unfold binary_serialize at h ⊢
  unfold binary_deserialize
  rw [unpack_pack _ h]
  simp only [Option.bind_eq_bind, Option.some_bind, jsonLoads_serEForm, EForm.get?,
    List.lookup, String.reduceBEq, beq_self_eq_true, asStrList_map_str, List.zip_map']
  simp [Prod.mk.eta, List.map_id]

/-- C2 witness: the envelope round trip at a one-blob session carrying
an object spec. -/
theorem claim2_binary_roundtrip_witness :
    ((binary_serialize (.str "root") ⟨[("u", [1, 2, 3])], [("o", .int 7)], 1⟩).length < 2 ^ 63)
    ∧ binary_deserialize
        (binary_serialize (.str "root") ⟨[("u", [1, 2, 3])], [("o", .int 7)], 1⟩)
        Session.empty
      = some (.str "root",
          { Session.empty with
            blobs := (⟨[("u", [1, 2, 3])], [("o", .int 7)], 1⟩ : Session).blobs,
            objectSpecs := (⟨[("u", [1, 2, 3])], [("o", .int 7)], 1⟩ :
              Session).objectSpecs }) :=
  ⟨by decide,
    claim2_binary_roundtrip (.str "root") ⟨[("u", [1, 2, 3])], [("o", .int 7)], 1⟩
      Session.empty (by decide)⟩

/-- C7 counterexample: the `trusted` parameter of the function codec's
decode is **not** mandatory — the def-site default `trusted=False`
(source line 246) makes a call that omits the keyword succeed. -/
theorem claim7_counterexample :
    function_decode (some (.known "f")) none = some (some (.named "f"))
    ∧ function_decode (some (.known "f")) none
        = function_decode (some (.known "f")) (some false) := by decide

/-- C7 (amended): the function codec's decode takes a `trusted` flag
**defaulting to `False`**: a call site that omits it gets untrusted
behavior, so decode is never silently defaulted to trusted, and with
the flag false the facility refuses to materialize arbitrary executable
payloads. -/
theorem claim7_amended (spec : Option FunctionSpec) (code : String) :
    function_decode spec none = function_decode spec (some false)
    ∧ function_decode (some (.payload code)) (some false) = none
    ∧ function_decode (some (.payload code)) none = none
    ∧ (∀ t, function_decode none (some t) = some none) :=
  ⟨rfl, rfl, rfl, fun _ => rfl⟩

/-- C6: the arrow-array decoder accepts the legacy
`arrow-serialized-blob` key and decodes it through the old
deserializer; fresh encodings carry only the `arrow-ipc-blob` key; a
form carrying neither key fails to decode. -/
theorem claim6_arrow_compat (s : Session) (id : String) (a : ArrowArray)
    (hblob : s.blobs.lookup id = some (paSerializeLegacy a)) :
    arrow_array_decode s (.obj [("arrow-serialized-blob", .str ("blob:" ++ id))])
        = some (.plain a)
    ∧ (∀ (s' : Session) (a' : ArrowArray), (arrow_array_encode s' a').1
        = .obj [("arrow-ipc-blob", .str ("blob:" ++ uuidStr s'.nextId))])
    ∧ (∀ (s' : Session) (e : EForm), e.get? "arrow-serialized-blob" = none →
        e.get? "arrow-ipc-blob" = none → arrow_array_decode s' e = none) := by
  refine ⟨?_, fun s' a' => rfl, ?_⟩
  · unfold arrow_array_decode
    simp only [EForm.get?, List.lookup, beq_self_eq_true, EForm.asStr, Option.bind_eq_bind,
      Option.some_bind, get_blob_ref, hblob, paDeserialize_legacy]
    rfl
  · intro s' e h1 h2
    unfold arrow_array_decode
    rw [h1, h2]
    rfl

/-- C6 witness: legacy acceptance, fresh-key shape and missing-key
failure at a concrete session and array. -/
theorem claim6_arrow_compat_witness :
    ((⟨[("old", paSerializeLegacy ⟨"int64", [.int 1]⟩)], [], 0⟩ : Session).blobs.lookup "old"
        = some (paSerializeLegacy ⟨"int64", [.int 1]⟩))
    ∧ (arrow_array_decode ⟨[("old", paSerializeLegacy ⟨"int64", [.int 1]⟩)], [], 0⟩
          (.obj [("arrow-serialized-blob", .str ("blob:" ++ "old"))])
        = some (.plain ⟨"int64", [.int 1]⟩)
      ∧ (∀ (s' : Session) (a' : ArrowArray), (arrow_array_encode s' a').1
          = .obj [("arrow-ipc-blob", .str ("blob:" ++ uuidStr s'.nextId))])
      ∧ (∀ (s' : Session) (e : EForm), e.get? "arrow-serialized-blob" = none →
          e.get? "arrow-ipc-blob" = none → arrow_array_decode s' e = none)) :=
  ⟨by decide, claim6_arrow_compat _ "old" ⟨"int64", [.int 1]⟩ (by decide)⟩

/-- C1 counterexample: for the well-formed empty object array of shape
`(0, 5)` the decoded array has shape `(0,)` — object-dtype decoding
rebuilds the shape from the nesting of the exported value list and
ignores the recorded `shape` entry, so `decode(encode(a))` does not
reproduce the shape exactly for every supported array. -/
theorem claim1_counterexample :
    (⟨.object, [0, 5], .objs [], none⟩ : NDArray).wf = true
    ∧ array_encode Session.empty (.nd ⟨.object, [0, 5], .objs [], none⟩)
        = some (.obj [("type", .str "ndarray"),
            ("data", .obj [("values", .arr []),
              ("shape", .arr [.int 0, .int 5]),
              ("dtype", .str "object")])], Session.empty)
    ∧ array_decode Session.empty
        (.obj [("type", .str "ndarray"),
          ("data", .obj [("values", .arr []),
            ("shape", .arr [.int 0, .int 5]),
            ("dtype", .str "object")])])
        = some (.nd ⟨.object, [0], .objs [], none⟩)
    ∧ Value.nd ⟨.object, [0], .objs [], none⟩ ≠ .nd ⟨.object, [0, 5], .objs [], none⟩ := by
  decide

/-- C1 (amended): decoding the encoding of a supported array value —
dense numeric, masked numeric, boolean, temporal (all compared
bit-for-bit, mask included), columnar, plain number — reproduces it
exactly; for generic/object arrays the decoded shape is re-derived from
the nesting of the exported value list rather than the recorded `shape`
entry, so the round trip is exact whenever every non-final dimension is
nonzero (`objShapeOk`); and decode produces a masked array exactly when
the encoded form contains the `mask` key. -/
theorem claim1_amended (v : Value) (hwf : v.wf = true) (hos : v.objShapeOk = true) :
    (∃ e s', array_encode Session.empty v = some (e, s') ∧ array_decode s' e = some v)
    ∧ (∀ s e a, ndarray_decode s e = some a → (a.mask.isSome ↔ (e.get? "mask").isSome)) := by
  refine ⟨?_, fun s e a h => ndarray_decode_mask_iff s e a h⟩
  cases v with
  | nd a =>
    refine ⟨_, _, rfl, ?_⟩
    have hrt := ndarray_roundtrip a hwf hos
    show array_decode (ndarray_encode Session.empty a).2
      (.obj [("type", .str "ndarray"), ("data", (ndarray_encode Session.empty a).1)])
      = some (.nd a)
    unfold array_decode
    simp only [EForm.get?, List.lookup, String.reduceBEq, String.reduceEq, beq_self_eq_true,
      EForm.asStr, Option.bind_eq_bind, Option.some_bind, hrt]
    rfl
  | arrow a =>
    refine ⟨_, _, rfl, ?_⟩
    have hrt := arrow_roundtrip a
    show array_decode (arrow_array_encode Session.empty a).2
      (.obj [("type", .str "arrow-array"), ("data", (arrow_array_encode Session.empty a).1)])
      = some (.arrow a)
    unfold array_decode
    simp only [EForm.get?, List.lookup, String.reduceBEq, String.reduceEq, beq_self_eq_true,
      EForm.asStr, Option.bind_eq_bind, Option.some_bind, hrt]
    rfl
  | number n =>
    refine ⟨_, _, rfl, ?_⟩
    unfold array_decode
    simp only [EForm.get?, List.lookup, String.reduceBEq, String.reduceEq, beq_self_eq_true,
      EForm.asStr, Option.bind_eq_bind, Option.some_bind]
  | arrowChunked cs => simp [Value.wf] at hwf
  | raw e => simp [Value.wf] at hwf

/-- C1 (amended) witness: the round trip at a masked three-element
signed 64-bit array. -/
theorem claim1_amended_witness :
    ((Value.nd ⟨.int64, [3], .words [1, 2, 3], some [false, true, false]⟩).wf = true
      ∧ (Value.nd ⟨.int64, [3], .words [1, 2, 3], some [false, true, false]⟩).objShapeOk
          = true)
    ∧ ((∃ e s', array_encode Session.empty
          (.nd ⟨.int64, [3], .words [1, 2, 3], some [false, true, false]⟩) = some (e, s')
        ∧ array_decode s' e
            = some (.nd ⟨.int64, [3], .words [1, 2, 3], some [false, true, false]⟩))
      ∧ (∀ s e a, ndarray_decode s e = some a → (a.mask.isSome ↔ (e.get? "mask").isSome))) :=
  ⟨⟨by decide, by decide⟩,
    claim1_amended (.nd ⟨.int64, [3], .words [1, 2, 3], some [false, true, false]⟩)
      (by decide) (by decide)⟩

/-- C10 counterexample: the `variable` codec's encode does **not**
return a string for every Python bytes value — on the non-UTF-8 byte
string `b'\xff'` the `str(obj, encoding='utf-8')` call raises
UnicodeDecodeError instead. -/
theorem claim10_counterexample :
    variable_encode Session.empty (.bytes [255]) = none := rfl

/-- C10 (amended): for every bytes value that is valid UTF-8, the
`variable` codec's encode returns its UTF-8 decoding as a plain string
with no `{type, data}` wrapper, decode passes that string through
unchanged, and therefore `decode(encode(b))` is a string value, not the
original bytes value. -/
theorem claim10_amended (bs cps : List Nat) (h : utf8Decode bs = some cps) :
    variable_encode Session.empty (.bytes bs)
        = some (.str (strOfCodepoints cps), Session.empty)
    ∧ (EForm.str (strOfCodepoints cps)).get? "type" = none
    ∧ (∀ s', variable_decode s' (.str (strOfCodepoints cps))
        = some (.pystr (strOfCodepoints cps)))
    ∧ PyVal.pystr (strOfCodepoints cps) ≠ .bytes bs := by
  refine ⟨?_, rfl, fun s' => rfl, fun hc => PyVal.noConfusion hc⟩
  show (utf8Decode bs).map (fun cps => (EForm.str (strOfCodepoints cps), Session.empty))
    = some (.str (strOfCodepoints cps), Session.empty)
  rw [h]
  rfl

/-- C10 (amended) witness: the bytes branch at the ASCII byte string
`b'abc'`. -/
theorem claim10_amended_witness :
    utf8Decode [97, 98, 99] = some [97, 98, 99]
    ∧ (variable_encode Session.empty (.bytes [97, 98, 99])
        = some (.str (strOfCodepoints [97, 98, 99]), Session.empty)
      ∧ (EForm.str (strOfCodepoints [97, 98, 99])).get? "type" = none
      ∧ (∀ s', variable_decode s' (.str (strOfCodepoints [97, 98, 99]))
          = some (.pystr (strOfCodepoints [97, 98, 99])))
      ∧ PyVal.pystr (strOfCodepoints [97, 98, 99]) ≠ .bytes [97, 98, 99]) :=
  ⟨by decide, claim10_amended [97, 98, 99] [97, 98, 99] (by decide)⟩

end VaexEnc
